import Mathlib

/-!
Verification of the ecg-render job pipeline.

This file gives a shallow embedding in Lean 4 of the parts of the
repository that the specification talks about:

* `src/modules/segment_optimizer.py` — complexity analysis and smart
  segmentation (`analyze_scenario_complexity`, `smart_segment_split`,
  `_find_optimal_split_points`, `_find_best_split_near`, `_even_split`);
* `src/modules/queue.py` — the Redis render queue (`get_next_job`);
* `src/modules/streaming_pipeline.py` — the bounded frame queue
  (`put_frame`, `get_frame`, `_apply_drop_policy`);
* `src/modules/segment_merger.py` — segment merging (`merge_segments`,
  `_perform_merge`) and error recovery (`can_recover`,
  `attempt_partial_merge`);
* `src/modules/callbacks.py` — `send_callback` retry behaviour;
* `src/utils/redis_manager.py` — `update_worker_status`.

Python floats are modelled by the rationals `ℚ` (all the arithmetic the
spec reasons about is exact), Python ints by `ℤ`/`ℕ`, Python strings by
`String`, dictionaries by association lists, the Redis store and the file
system by explicit state records, and wall-clock timestamps by a `ℚ`
parameter supplied by the caller.  `int(x)` in Python truncates toward
zero, which `pyInt` reproduces.
-/

/-- Python `int(x)` on a float: truncation toward zero. -/
def pyInt (q : ℚ) : ℤ := if 0 ≤ q then ⌊q⌋ else ⌈q⌉

/-- Python `range(a, b)` over integers. -/
def intRange (a b : ℤ) : List ℤ := (List.range (b - a).toNat).map (fun (i : ℕ) => a + (i : ℤ))

/-- `dict.get(k, 0)` on a float-keyed complexity map. -/
def mapGetD (m : List (ℤ × ℚ)) (k : ℤ) : ℚ := ((List.lookup k m).getD 0)

/-- Overwrite-or-add update of an association list (Python dict assignment). -/
def assocSet {κ α : Type} [DecidableEq κ] : List (κ × α) → κ → α → List (κ × α)
  | [], k, v => [(k, v)]
  | (k1, v1) :: rest, k, v =>
    if k1 = k then (k, v) :: rest else (k1, v1) :: assocSet rest k v

/-- Python `'sub' in s` on strings. -/
def strContains (s sub : String) : Bool := decide (sub.toList <:+: s.toList)

/-! ## Data model of `segment_optimizer.py` -/

/-- The `style` sub-dictionary of a cue (only the keys the code reads). -/
structure CueStyle where
  fontFamily : Option String := none
  fontSize : Option String := none
  deriving Repr, DecidableEq

/-- The `animation` sub-dictionary of a cue. -/
structure CueAnim where
  type : Option String := none
  deriving Repr, DecidableEq

/-- A subtitle cue.  `cue.get('start', 0)` / `cue.get('end', 0)` default to
`0`, so `start`/`endTime` are total with default `0`; the Python key `end`
is a Lean keyword and is called `endTime` here.  `style`, `animation` and
`emotion` are optional (absent = falsy). -/
structure Cue where
  start : ℚ := 0
  endTime : ℚ := 0
  text : String := ""
  style : Option CueStyle := none
  animation : Option CueAnim := none
  emotion : Option String := none
  deriving Repr, DecidableEq

/-- A MotionText scenario: the code only reads `scenario.get('cues', [])`. -/
structure Scenario where
  cues : List Cue := []
  deriving Repr, DecidableEq

/-- `VideoSegment` dataclass of `segment_optimizer.py`. -/
structure VideoSegment where
  segment_id : ℕ
  worker_id : ℕ
  start_time : ℚ
  end_time : ℚ
  cues : List Cue
  complexity_score : ℚ
  estimated_frames : ℤ
  deriving Repr, DecidableEq

instance : Inhabited VideoSegment :=
  ⟨⟨0, 0, 0, 0, [], 0, 0⟩⟩

/-- Per-cue complexity contribution inside `analyze_scenario_complexity`:
`1.0` base, `+ len(text) * 0.01`, `+ 0.5` if the style has a fontFamily
containing `'CJK'`, `+ 1.5` for elastic/bounce and `+ 0.5` for fade/slide
animations, `+ 0.3` for a truthy non-neutral emotion. -/
def cueContribution (c : Cue) : ℚ :=
  1 + (c.text.length : ℚ) * (1 / 100)
    + (match c.style with
       | some st =>
         match st.fontFamily with
         | some ff => if strContains ff "CJK" then (1 / 2 : ℚ) else 0
         | none => 0
       | none => 0)
    + (match c.animation with
       | some an =>
         match an.type with
         | some t =>
           if t = "elastic" ∨ t = "bounce" then (3 / 2 : ℚ)
           else if t = "fade" ∨ t = "slide" then (1 / 2 : ℚ) else 0
         | none => 0
       | none => 0)
    + (match c.emotion with
       | some e => if e ≠ "" ∧ e ≠ "neutral" then (3 / 10 : ℚ) else 0
       | none => 0)

/-- The active-cue list comprehension: `cue.get('start', 0) <= second <=
cue.get('end', 0)` (a closed window on both ends). -/
def activeCuesAt (cues : List Cue) (second : ℤ) : List Cue :=
  cues.filter (fun c => decide (c.start ≤ (second : ℚ) ∧ (second : ℚ) ≤ c.endTime))

/-- Complexity of one whole second: sum of active-cue contributions, with
the overlap multiplier `1 + 0.5 * (k - 1)` when `k > 1` cues are active. -/
def complexityAt (cues : List Cue) (second : ℤ) : ℚ :=
  let active := activeCuesAt cues second
  let complexity := active.foldl (fun acc c => acc + cueContribution c) 0
  if 1 < active.length then
    complexity * (1 + (1 / 2 : ℚ) * ((active.length : ℚ) - 1))
  else complexity

/-- `max(cue.get('end', 0) for cue in cues)` (the cue list is nonempty at
the call site; `0` is returned on the empty list only to make it total). -/
def maxCueEnd : List Cue → ℚ
  | [] => 0
  | c :: rest => rest.foldl (fun m x => max m x.endTime) c.endTime

/-- `SegmentOptimizer.analyze_scenario_complexity`: the returned dict maps
`float(second)` to the complexity for `second in range(int(max_time) + 1)`;
modelled as an association list in insertion order. -/
def analyze_scenario_complexity (sc : Scenario) : List (ℤ × ℚ) :=
  match sc.cues with
  | [] => []
  | _ =>
    (intRange 0 (pyInt (maxCueEnd sc.cues) + 1)).map
      (fun s => (s, complexityAt sc.cues s))

/-- Inner loop of `_find_best_split_near`: scans the search range keeping
the lowest-complexity second, returning early on a zero-complexity
second.  `minC = none` encodes the initial `float('inf')`. -/
def bestSplitLoop (cmap : List (ℤ × ℚ)) :
    List ℤ → ℚ → Option ℚ → ℚ
  | [], best, _ => best
  | sec :: rest, best, minC =>
    let c := mapGetD cmap sec
    -- the Python loop updates (min_complexity, best_time) before testing
    -- `complexity == 0`, but the early return ignores that update, so the
    -- test is hoisted here
    if c = 0 then (sec : ℚ)
    else
      match minC with
      | none => bestSplitLoop cmap rest (sec : ℚ) (some c)
      | some m =>
        if c < m then bestSplitLoop cmap rest (sec : ℚ) (some c)
        else bestSplitLoop cmap rest best minC

/-- `SegmentOptimizer._find_best_split_near`. -/
def find_best_split_near (cmap : List (ℤ × ℚ)) (target minTime maxTime : ℚ) : ℚ :=
  bestSplitLoop cmap
    (intRange (pyInt (max minTime (target - 2))) (pyInt (min maxTime (target + 3))))
    target none

/-- Main loop of `_find_optimal_split_points`: walk the sorted seconds,
accumulate complexity, and split near any second where the accumulated
complexity reaches the per-segment target; stop once `num_workers` split
points exist. -/
def splitLoop (cmap : List (ℤ × ℚ)) (duration : ℚ) (numWorkers : ℕ) (target : ℚ) :
    List ℤ → ℚ → ℚ → List ℚ → List ℚ
  | [], _, _, pts => pts
  | sec :: rest, cur, lastSplit, pts =>
    let cur1 := cur + mapGetD cmap sec
    if target ≤ cur1 then
      let best := find_best_split_near cmap (sec : ℚ) lastSplit (min duration ((sec : ℚ) + 5))
      if lastSplit + 5 < best then
        let pts1 := pts ++ [best]
        if numWorkers ≤ pts1.length then pts1
        else splitLoop cmap duration numWorkers target rest 0 best pts1
      else splitLoop cmap duration numWorkers target rest cur1 lastSplit pts
    else splitLoop cmap duration numWorkers target rest cur1 lastSplit pts

/-- The largest-gap scan of the `while` loop (initial index `0`, gap `0`). -/
def largestGapLoop (pts : List ℚ) : List ℕ → ℕ → ℚ → ℕ × ℚ
  | [], gi, g => (gi, g)
  | i :: rest, gi, g =>
    let gap := pts.getD (i + 1) 0 - pts.getD i 0
    if g < gap then largestGapLoop pts rest i gap else largestGapLoop pts rest gi g

/-- `largest_gap_index` / `largest_gap` over `range(len(split_points)-1)`. -/
def largestGap (pts : List ℚ) : ℕ × ℚ :=
  largestGapLoop pts (List.range (pts.length - 1)) 0 0

/-- Python `list.insert(i, x)` (clamps at the end of the list). -/
def insertAtIdx : ℕ → ℚ → List ℚ → List ℚ
  | 0, a, l => a :: l
  | _ + 1, a, [] => [a]
  | n + 1, a, x :: xs => x :: insertAtIdx n a xs

theorem insertAtIdx_length (n : ℕ) (a : ℚ) (l : List ℚ) :
    (insertAtIdx n a l).length = l.length + 1 := by
  induction l generalizing n with
  | nil => cases n <;> simp [insertAtIdx]
  | cons x xs ih =>
    cases n with
    | zero => simp [insertAtIdx]
    | succ m => simp [insertAtIdx, ih]

/-- The `while len(split_points) < num_workers` loop: repeatedly bisect the
largest gap, stopping when the largest gap is at most
`min_segment_duration * 2 = 10`. -/
def addMidpoints (numWorkers : ℕ) (pts : List ℚ) : List ℚ :=
  if pts.length < numWorkers then
    let lg := largestGap pts
    if 10 < lg.2 then
      addMidpoints numWorkers
        (insertAtIdx (lg.1 + 1) ((pts.getD lg.1 0 + pts.getD (lg.1 + 1) 0) / 2) pts)
    else pts
  else pts
termination_by numWorkers - pts.length
decreasing_by
  simp only [insertAtIdx_length]
  omega

/-- `SegmentOptimizer._find_optimal_split_points`. -/
def find_optimal_split_points (cmap : List (ℤ × ℚ)) (duration : ℚ) (numWorkers : ℕ) :
    List ℚ :=
  if cmap.isEmpty then
    ((0 : ℚ) :: (List.range (numWorkers - 1)).map
        (fun (i : ℕ) => ((i : ℚ) + 1) * (duration / (numWorkers : ℚ)))) ++ [duration]
  else
    let total := (cmap.map Prod.snd).sum
    let target := total / (numWorkers : ℚ)
    let sortedKeys := List.insertionSort (fun a b => a ≤ b) (cmap.map Prod.fst)
    let pts := splitLoop cmap duration numWorkers target sortedKeys 0 0 [0]
    let pts1 := addMidpoints numWorkers pts
    let pts2 := if pts1.getLastD 0 < duration then pts1 ++ [duration] else pts1
    List.insertionSort (fun a b => a ≤ b) pts2

/-- `SegmentOptimizer._get_segment_cues`. -/
def get_segment_cues (cues : List Cue) (startTime endTime : ℚ) : List Cue :=
  cues.filter (fun c => decide (startTime < c.endTime ∧ c.start < endTime))

/-- `SegmentOptimizer._calculate_segment_complexity`. -/
def calculate_segment_complexity (cmap : List (ℤ × ℚ)) (startTime endTime : ℚ) : ℚ :=
  (intRange (pyInt startTime) (pyInt endTime + 1)).foldl
    (fun acc s => acc + mapGetD cmap s) 0

/-- `SegmentOptimizer._even_split`. -/
def even_split (duration : ℚ) (numWorkers : ℕ) : List VideoSegment :=
  let segmentDuration := duration / (numWorkers : ℚ)
  (List.range numWorkers).map (fun i =>
    { segment_id := i
      worker_id := i
      start_time := (i : ℚ) * segmentDuration
      end_time := min (((i : ℚ) + 1) * segmentDuration) duration
      cues := []
      complexity_score := 1
      estimated_frames :=
        pyInt ((min (((i : ℚ) + 1) * segmentDuration) duration - (i : ℚ) * segmentDuration) * 30) })

/-- `SegmentOptimizer.smart_segment_split`. -/
def smart_segment_split (sc : Scenario) (videoDuration : ℚ) (numWorkers : ℕ) :
    List VideoSegment :=
  if sc.cues.isEmpty then even_split videoDuration numWorkers
  else
    let cmap := analyze_scenario_complexity sc
    let pts := find_optimal_split_points cmap videoDuration numWorkers
    (List.range (pts.length - 1)).map (fun i =>
      { segment_id := i
        worker_id := i % numWorkers
        start_time := pts.getD i 0
        end_time := pts.getD (i + 1) 0
        cues := get_segment_cues sc.cues (pts.getD i 0) (pts.getD (i + 1) 0)
        complexity_score := calculate_segment_complexity cmap (pts.getD i 0) (pts.getD (i + 1) 0)
        estimated_frames := pyInt ((pts.getD (i + 1) 0 - pts.getD i 0) * 30) })

/-! ## Data model of `queue.py` (`RenderQueue`) -/

/-- `RenderJob` dataclass (scenario/options payloads abstracted away;
timestamps are rationals supplied by the caller). -/
structure RenderJob where
  job_id : String
  video_url : String := ""
  callback_url : String := ""
  status : String := "queued"
  progress : ℤ := 0
  created_at : Option ℚ := none
  started_at : Option ℚ := none
  completed_at : Option ℚ := none
  error_message : Option String := none
  error_code : Option String := none
  deriving Repr, DecidableEq

/-- The Redis keys the queue uses: `render:queue` (a list), `render:jobs`
(a hash) and `render:active` (a set, kept duplicate-free by `saddL`). -/
structure QueueState where
  queued : List String
  jobs : List (String × RenderJob)
  active : List String
  deriving Repr, DecidableEq

/-- `self.max_concurrent = 3`. -/
def maxConcurrent : ℕ := 3

/-- Redis `SADD` on the modelled set. -/
def saddL (l : List String) (x : String) : List String :=
  if x ∈ l then l else x :: l

/-- The capacity test at the head of `get_next_job`: one Redis `SCARD`
round-trip followed by the in-process comparison with `max_concurrent`.
Between this read and the later `SADD` other coordinators may act. -/
def leaseCapacityOk (s : QueueState) : Bool := s.active.length < maxConcurrent

/-- The remainder of `get_next_job` after the capacity check: `LPOP` the
queue head, `HGET` the job (dropping the id if the hash entry is
missing), `SADD` it to the active set, set `status='processing'`, stamp
`started_at`, and `HSET` the updated job back. -/
def leasePop (s : QueueState) (now : ℚ) : Option RenderJob × QueueState :=
  match s.queued with
  | [] => (none, s)
  | jid :: rest =>
    match List.lookup jid s.jobs with
    | none => (none, { s with queued := rest })
    | some job =>
      let job1 := { job with status := "processing", started_at := some now }
      (some job1,
        { queued := rest
          jobs := assocSet s.jobs jid job1
          active := saddL s.active jid })

/-- `RenderQueue.get_next_job` as one sequential step. -/
def get_next_job (s : QueueState) (now : ℚ) : Option RenderJob × QueueState :=
  if leaseCapacityOk s then leasePop s now else (none, s)

/-! ## Data model of `streaming_pipeline.py` (`AsyncFrameQueue`) -/

/-- `FrameData` (the PNG payload is abstracted to its byte size). -/
structure FrameData where
  frame_number : ℕ
  size : ℕ
  deriving Repr, DecidableEq

/-- `AsyncFrameQueue` state.  `current_memory` is a Python int and may in
principle go negative, so it is modelled as `ℤ`. -/
structure FrameQueue where
  max_size : ℕ
  max_memory_bytes : ℕ
  frames : List FrameData
  current_memory : ℤ
  dropped_frames : ℕ
  processed_frames : ℕ
  deriving Repr, DecidableEq

/-- A fresh `AsyncFrameQueue(max_size, max_memory_mb)` (the byte budget is
passed directly rather than in MiB). -/
def mkFrameQueue (maxSize maxMemoryBytes : ℕ) : FrameQueue :=
  ⟨maxSize, maxMemoryBytes, [], 0, 0, 0⟩

/-- `asyncio.Queue(maxsize)` is full iff `maxsize > 0` and the element
count has reached it (`maxsize = 0` means unbounded). -/
def queueFull (q : FrameQueue) : Bool :=
  0 < q.max_size ∧ q.max_size ≤ q.frames.length

/-- `AsyncFrameQueue.put_frame`: reject the new frame when it would
overflow the byte budget; on a full queue run `_apply_drop_policy`
(drop the oldest frame) and then admit the new frame. -/
def put_frame (q : FrameQueue) (frameSize frameNumber : ℕ) : Bool × FrameQueue :=
  if (q.max_memory_bytes : ℤ) < q.current_memory + frameSize then
    (false, { q with dropped_frames := q.dropped_frames + 1 })
  else
    let fr : FrameData := ⟨frameNumber, frameSize⟩
    if queueFull q then
      match q.frames with
      | [] =>
        -- `_apply_drop_policy` hits `QueueEmpty` and returns False
        (false, { q with dropped_frames := q.dropped_frames + 1 })
      | old :: rest =>
        (true,
          { q with
              frames := rest ++ [fr]
              current_memory := q.current_memory - old.size + frameSize
              dropped_frames := q.dropped_frames + 1 })
    else
      (true,
        { q with
            frames := q.frames ++ [fr]
            current_memory := q.current_memory + frameSize })

/-- `AsyncFrameQueue.get_frame`: pop the head (the 1 s timeout on an empty
queue returns `None`). -/
def get_frame (q : FrameQueue) : Option FrameData × FrameQueue :=
  match q.frames with
  | [] => (none, q)
  | fr :: rest =>
    (some fr,
      { q with
          frames := rest
          current_memory := q.current_memory - fr.size
          processed_frames := q.processed_frames + 1 })

/-- One operation offered to the frame queue. -/
inductive FrameOp where
  | put (size frameNumber : ℕ)
  | get
  deriving Repr, DecidableEq

/-- Run a sequence of queue operations. -/
def runFrameOps (q : FrameQueue) : List FrameOp → FrameQueue
  | [] => q
  | FrameOp.put sz n :: rest => runFrameOps (put_frame q sz n).2 rest
  | FrameOp.get :: rest => runFrameOps (get_frame q).2 rest

/-- Number of frames admitted (i.e. `put_frame` returned `True`) along a
run. -/
def countAdmitted (q : FrameQueue) : List FrameOp → ℕ
  | [] => 0
  | FrameOp.put sz n :: rest =>
    (if (put_frame q sz n).1 then 1 else 0) + countAdmitted (put_frame q sz n).2 rest
  | FrameOp.get :: rest => countAdmitted (get_frame q).2 rest

/-- Number of `put_frame` calls in a run. -/
def countPuts : List FrameOp → ℕ
  | [] => 0
  | FrameOp.put _ _ :: rest => 1 + countPuts rest
  | FrameOp.get :: rest => countPuts rest

/-! ## Data model of `segment_merger.py` -/

/-- `SegmentInfo` dataclass (timestamps modelled as rationals, `0` for the
`datetime.utcnow()` defaults). -/
structure SegmentInfo where
  worker_id : ℤ
  segment_id : ℤ
  start_time : ℚ
  end_time : ℚ
  file_path : String
  file_size : ℕ
  frames_processed : ℕ
  status : String
  error_message : Option String := none
  created_at : ℚ := 0
  completed_at : ℚ := 0
  deriving Repr, DecidableEq

/-- The file system visible to the merger: a map from path to byte size. -/
structure FSState where
  files : List (String × ℕ)
  deriving Repr, DecidableEq

/-- `os.path.exists`. -/
def fsExists (fs : FSState) (p : String) : Bool := (List.lookup p fs.files).isSome

/-- Creating/overwriting a file of a given size. -/
def fsSet (fs : FSState) (p : String) (sz : ℕ) : FSState :=
  ⟨assocSet fs.files p sz⟩

/-- `Path.unlink`. -/
def fsDel (fs : FSState) (p : String) : FSState :=
  ⟨fs.files.filter (fun kv => kv.1 ≠ p)⟩

/-- `SegmentMerger` state: `self.segments` dict keyed by worker id,
`self.expected_segments` and the `self.is_merging` flag. -/
structure MergerState where
  job_id : String
  segments : List (ℤ × SegmentInfo)
  expected_segments : ℕ
  is_merging : Bool
  deriving Repr, DecidableEq

/-- `SegmentMerger.register_segment`. -/
def register_segment (s : MergerState) (info : SegmentInfo) : MergerState :=
  { s with segments := assocSet s.segments info.worker_id info }

/-- `SegmentMerger.are_all_segments_ready`: enough segments registered and
every one completed with a truthy, existing file path. -/
def are_all_segments_ready (s : MergerState) (fs : FSState) : Bool :=
  if s.segments.length < s.expected_segments then false
  else s.segments.all (fun kv =>
    kv.2.status = "completed" ∧ kv.2.file_path ≠ "" ∧ fsExists fs kv.2.file_path)

/-- `SegmentMerger.get_failed_segments`. -/
def get_failed_segments (s : MergerState) : List SegmentInfo :=
  (s.segments.map Prod.snd).filter (fun sg => sg.status = "failed")

/-- The distinct exception exits of `merge_segments` / `_perform_merge`.
`valueError` is Python's `max()` on an empty sequence (reachable only when
`expected_segments = 0` and nothing is registered). -/
inductive MergeError where
  | alreadyMerging
  | segmentsFailed (n : ℕ)
  | notReady
  | fileNotFound (p : String)
  | ffmpegFailed
  | valueError
  deriving Repr, DecidableEq

/-- The success dictionary returned by `_perform_merge`. -/
structure MergeResult where
  success : Bool
  output_path : String
  file_size : ℕ
  segments_merged : ℕ
  total_frames : ℕ
  duration : ℚ
  merge_time : ℚ
  deriving Repr, DecidableEq

/-- `max(seg.end_time for seg in segments)` (nonempty at the call site). -/
def maxSegEnd : List SegmentInfo → ℚ
  | [] => 0
  | sg :: rest => rest.foldl (fun m x => max m x.end_time) sg.end_time

/-- `SegmentMerger._perform_merge`: write the concat list (checking each
segment file exists), run `ffmpeg -f concat -c copy` (abstracted by the
`encoderOk`/`encodedSize` oracle), assemble the result dictionary and
delete the concat file.  Segment files themselves are not touched. -/
def perform_merge (jobId : String) (segs : List SegmentInfo) (outPath : String)
    (fs : FSState) (encoderOk : Bool) (encodedSize : ℕ) :
    Except MergeError MergeResult × FSState :=
  let concatPath := "concat_" ++ jobId ++ ".txt"
  match segs.find? (fun sg => ! fsExists fs sg.file_path) with
  | some sg =>
    -- the concat file was opened for writing before the loop raised
    (Except.error (MergeError.fileNotFound sg.file_path), fsSet fs concatPath 0)
  | none =>
    let fs1 := fsSet fs concatPath 0
    if encoderOk = false then (Except.error MergeError.ffmpegFailed, fs1)
    else
      match segs with
      | [] => (Except.error MergeError.valueError, fsSet fs1 outPath encodedSize)
      | s0 :: _ =>
        let fs2 := fsSet fs1 outPath encodedSize
        let outputSize := ((List.lookup outPath fs2.files).getD 0)
        let result : MergeResult :=
          { success := true
            output_path := outPath
            file_size := outputSize
            segments_merged := segs.length
            total_frames := (segs.map (fun sg => sg.frames_processed)).sum
            duration := maxSegEnd segs
            merge_time := (segs.getLastD s0).completed_at - s0.created_at }
        (Except.ok result, fsDel fs2 concatPath)

/-- Body of `merge_segments` between the `is_merging` guard and the
`finally` (readiness check, worker-id sort, default output path,
`_perform_merge`). -/
def mergeBody (s : MergerState) (fs : FSState) (outputPath : Option String)
    (encoderOk : Bool) (encodedSize : ℕ) :
    Except MergeError MergeResult × FSState :=
  if are_all_segments_ready s fs = false then
    if get_failed_segments s ≠ [] then
      (Except.error (MergeError.segmentsFailed (get_failed_segments s).length), fs)
    else (Except.error MergeError.notReady, fs)
  else
    let sortedSegs :=
      List.insertionSort (fun a b => a.worker_id ≤ b.worker_id) (s.segments.map Prod.snd)
    let outPath := outputPath.getD ("final_" ++ s.job_id ++ ".mp4")
    perform_merge s.job_id sortedSegs outPath fs encoderOk encodedSize

/-- `SegmentMerger.merge_segments`: reject when a merge is already in
progress (leaving the flag as it found it), otherwise set `is_merging`,
run the body, and reset the flag on every exit of the `try`/`finally`. -/
def merge_segments (s : MergerState) (fs : FSState) (outputPath : Option String)
    (encoderOk : Bool) (encodedSize : ℕ) :
    Except MergeError MergeResult × MergerState × FSState :=
  if s.is_merging then (Except.error MergeError.alreadyMerging, s, fs)
  else
    let r := mergeBody { s with is_merging := true } fs outputPath encoderOk encodedSize
    (r.1, { s with is_merging := false }, r.2)

/-! ## Data model of `ErrorRecovery` (`segment_merger.py`) -/

/-- `ErrorRecovery` state. -/
structure RecoveryState where
  max_retries : ℕ := 3
  retry_counts : List (ℤ × ℕ) := []
  failed_segments : List SegmentInfo := []
  deriving Repr, DecidableEq

/-- `ErrorRecovery.handle_segment_failure`: bump the worker's retry count;
within budget and with a succeeding retry callback return `True`,
otherwise append to `failed_segments` and return `False`. -/
def handle_segment_failure (s : RecoveryState) (seg : SegmentInfo)
    (hasCallback cbOk : Bool) : Bool × RecoveryState :=
  let w := seg.worker_id
  let cnt := ((List.lookup w s.retry_counts).getD 0) + 1
  let s1 := { s with retry_counts := assocSet s.retry_counts w cnt }
  if cnt ≤ s1.max_retries ∧ hasCallback ∧ cbOk then (true, s1)
  else (false, { s1 with failed_segments := s1.failed_segments ++ [seg] })

/-- `ErrorRecovery.can_recover`: vacuously `True` with no tracked
segments, else `len(failed_segments) / len(retry_counts) < 0.25`. -/
def can_recover (s : RecoveryState) : Bool :=
  let total := s.retry_counts.length
  let failedCount := s.failed_segments.length
  if total = 0 then true
  else decide ((failedCount : ℚ) / (total : ℚ) < 1 / 4)

/-- The partial-merge result dictionary (the JSON key spelled `partial`
is a Lean keyword, hence `partialFlag`). -/
structure PartialResult where
  success : Bool
  partialFlag : Bool
  segments_merged : ℕ
  segments_failed : ℕ
  coverage : ℚ
  deriving Repr, DecidableEq

/-- The filter of `attempt_partial_merge`: completed with a truthy path. -/
def successfulSegs (segs : List SegmentInfo) : List SegmentInfo :=
  segs.filter (fun sg => sg.status = "completed" ∧ sg.file_path ≠ "")

/-- `ErrorRecovery.attempt_partial_merge`. -/
def attempt_partial_merge (s : RecoveryState) (segs : List SegmentInfo) :
    Except String PartialResult :=
  let successful := successfulSegs segs
  if successful.isEmpty then Except.error "No successful segments to merge"
  else
    Except.ok
      { success := true
        partialFlag := true
        segments_merged := successful.length
        segments_failed := s.failed_segments.length
        coverage := (successful.length : ℚ) / (segs.length : ℚ) }

/-! ## Data model of `callbacks.py` (`CallbackService.send_callback`) -/

/-- Outcome of one HTTP POST attempt. -/
inductive CbResp where
  | ok200
  | httpStatus (code : ℕ)
  | timeout
  | clientError
  | otherError
  deriving Repr, DecidableEq

/-- Observable result of `send_callback`: the returned boolean, the number
of POST attempts made, and the backoff sleeps performed (in seconds). -/
structure CbRun where
  success : Bool
  attempts : ℕ
  waits : List ℕ
  deriving Repr, DecidableEq

/-- `retry_attempts = retry_count or self.retry_count`: `None` and `0` are
falsy and fall back to the service default. -/
def effectiveRetries (dflt : ℕ) (retryCount : Option ℕ) : ℕ :=
  match retryCount with
  | none => dflt
  | some k => if k = 0 then dflt else k

/-- The `for attempt in range(retry_attempts)` loop: stop with `True` on
the first HTTP 200; any other status, timeout or error is a failed
attempt followed by a `2 ** attempt` second sleep unless it was the last
attempt. -/
def cbLoop (resp : ℕ → CbResp) (total : ℕ) : ℕ → ℕ → CbRun
  | _, 0 => ⟨false, 0, []⟩
  | i, rem + 1 =>
    match resp i with
    | CbResp.ok200 => ⟨true, 1, []⟩
    | _ =>
      let rest := cbLoop resp total (i + 1) rem
      ⟨rest.success, rest.attempts + 1,
        (if i + 1 < total then [2 ^ i] else []) ++ rest.waits⟩

/-- `CallbackService.send_callback` (the payload and URL do not influence
control flow; `resp` gives the outcome of each attempt). -/
def send_callback (dflt : ℕ) (retryCount : Option ℕ) (resp : ℕ → CbResp) : CbRun :=
  let k := effectiveRetries dflt retryCount
  cbLoop resp k 0 k

/-! ## Data model of `redis_manager.py` (`update_worker_status`) -/

/-- The JSON record stored under `worker:{job_id}:{worker_id}`. -/
structure WorkerStatusRecord where
  status : String
  progress : ℚ
  updated_at : ℚ
  worker_id : ℤ
  deriving Repr, DecidableEq

/-- `RedisManager.update_worker_status`: returns the Redis key and the
stored record; the progress is clamped by `min(100, max(0, progress))`. -/
def update_worker_status (jobId : String) (workerId : ℤ) (status : String)
    (progress : ℚ) (now : ℚ) : String × WorkerStatusRecord :=
  ("worker:" ++ jobId ++ ":" ++ toString workerId,
    { status := status
      progress := min 100 (max 0 progress)
      updated_at := now
      worker_id := workerId })

/-! ## Generic helper lemmas -/

theorem assocSet_lookup {κ α : Type} [DecidableEq κ] (m : List (κ × α)) (k : κ) (v : α) :
    List.lookup k (assocSet m k v) = some v := by
  induction m with
  | nil => simp [assocSet, List.lookup]
  | cons kv rest ih =>
    obtain ⟨k1, v1⟩ := kv
    by_cases h : k1 = k
    · simp [assocSet, h, List.lookup]
    · have hb : (k == k1) = false := beq_eq_false_iff_ne.mpr (Ne.symm h)
      simp [assocSet, h, List.lookup, hb, ih]

theorem assocSet_lookup_ne {κ α : Type} [DecidableEq κ] (m : List (κ × α)) (k k1 : κ) (v : α)
    (h : k1 ≠ k) : List.lookup k1 (assocSet m k v) = List.lookup k1 m := by
  have hb : (k1 == k) = false := beq_eq_false_iff_ne.mpr h
  induction m with
  | nil => simp [assocSet, List.lookup, hb]
  | cons kv rest ih =>
    obtain ⟨k2, v2⟩ := kv
    by_cases h2 : k2 = k
    · subst h2
      simp [assocSet, List.lookup, hb]
    · by_cases h3 : k1 = k2
      · subst h3
        simp [assocSet, h2, List.lookup]
      · have hb3 : (k1 == k2) = false := beq_eq_false_iff_ne.mpr h3
        simp [assocSet, h2, List.lookup, hb3, ih]

theorem lookup_filter_ne {α : Type} (m : List (String × α)) (p k : String) (h : k ≠ p) :
    List.lookup k (m.filter (fun kv => kv.1 ≠ p)) = List.lookup k m := by
  induction m with
  | nil => simp
  | cons kv rest ih =>
    obtain ⟨k1, v1⟩ := kv
    by_cases h1 : k1 = p
    · subst h1
      have hb : (k == k1) = false := beq_eq_false_iff_ne.mpr h
      simp only [ne_eq, decide_not] at ih
      simp [List.lookup, hb, ih]
    · by_cases h2 : k = k1
      · subst h2
        simp [List.lookup, h1]
      · have hb : (k == k1) = false := beq_eq_false_iff_ne.mpr h2
        simp only [ne_eq, decide_not] at ih
        simp [List.lookup, hb, h1, ih]

/-! ## Claim C9 — `update_worker_status` clamps progress -/

/-- C9 (confirmed): whatever progress value is passed, the worker-status
record stored under `worker:{jobId}:{workerId}` carries
`min(100, max(0, progress))`, hence a progress in `[0, 100]`, together
with the given status, the worker id and the update timestamp. -/
theorem update_worker_status_clamped (jobId : String) (workerId : ℤ) (status : String)
    (progress now : ℚ) :
    0 ≤ (update_worker_status jobId workerId status progress now).2.progress ∧
    (update_worker_status jobId workerId status progress now).2.progress ≤ 100 ∧
    (update_worker_status jobId workerId status progress now).2.progress
      = min 100 (max 0 progress) ∧
    (update_worker_status jobId workerId status progress now).2.status = status ∧
    (update_worker_status jobId workerId status progress now).2.worker_id = workerId ∧
    (update_worker_status jobId workerId status progress now).2.updated_at = now ∧
    (update_worker_status jobId workerId status progress now).1
      = "worker:" ++ jobId ++ ":" ++ toString workerId := by
  refine ⟨?_, ?_, rfl, rfl, rfl, rfl, rfl⟩
  · exact le_min (by norm_num) (le_max_left 0 progress)
  · exact min_le_left _ _

/-! ## Claim C2 — queue lease semantics -/

theorem saddL_length_le (l : List String) (x : String) :
    (saddL l x).length ≤ l.length + 1 := by
  unfold saddL
  split <;> simp

/-- What a single sequential `get_next_job` step guarantees. -/
def LeaseStepSpec (s : QueueState) (now : ℚ) : Prop :=
  (maxConcurrent ≤ s.active.length → get_next_job s now = (none, s)) ∧
  (∀ job s1, get_next_job s now = (some job, s1) →
    s.active.length < maxConcurrent ∧
    ∃ jid rest j0,
      s.queued = jid :: rest ∧
      List.lookup jid s.jobs = some j0 ∧
      job = { j0 with status := "processing", started_at := some now } ∧
      job.status = "processing" ∧
      job.started_at = some now ∧
      s1.queued = rest ∧
      s1.active = saddL s.active jid ∧
      s1.jobs = assocSet s.jobs jid job) ∧
  (s.active.length ≤ maxConcurrent → (get_next_job s now).2.active.length ≤ maxConcurrent)

/-- C2 (amended): as a single atomic step, `get_next_job` returns no job
when the in-flight count has reached `max_concurrent = 3`; whenever it
returns a job, that job was popped from the head of `render:queue`, added
to `render:active`, given status `processing` and stamped with
`started_at`; and a single step never pushes the in-flight count above
the limit.  (The claimed race-freedom across concurrent coordinators is
refuted separately: the `SCARD` capacity check and the `SADD` commit are
distinct Redis operations.) -/
theorem get_next_job_lease_step (s : QueueState) (now : ℚ) : LeaseStepSpec s now := by
  obtain ⟨queued, jobs, active⟩ := s
  refine ⟨?_, ?_, ?_⟩
  · intro h
    simp only [maxConcurrent] at h
    have hcap : leaseCapacityOk ⟨queued, jobs, active⟩ = false := by
      simp only [leaseCapacityOk, maxConcurrent]
      simp only [decide_eq_false_iff_not]
      omega
    simp [get_next_job, hcap]
  · intro job s1 h
    rw [get_next_job] at h
    by_cases hc : leaseCapacityOk ⟨queued, jobs, active⟩ = true
    · rw [if_pos hc] at h
      have hlt : active.length < maxConcurrent := by
        simpa [leaseCapacityOk] using hc
      refine ⟨hlt, ?_⟩
      match hq : queued with
      | [] => simp [leasePop] at h
      | jid :: rest =>
        rw [leasePop] at h
        simp only at h
        match hl : List.lookup jid jobs with
        | none => rw [hl] at h; simp at h
        | some j0 =>
          rw [hl] at h
          simp only [Prod.mk.injEq, Option.some.injEq] at h
          obtain ⟨hjob, hs1⟩ := h
          refine ⟨jid, rest, j0, rfl, hl, hjob.symm, ?_, ?_, ?_, ?_, ?_⟩
          · rw [← hjob]
          · rw [← hjob]
          · rw [← hs1]
          · rw [← hs1]
          · rw [← hs1, ← hjob]
    · rw [if_neg hc] at h
      simp at h
  · intro h
    rw [get_next_job]
    by_cases hc : leaseCapacityOk ⟨queued, jobs, active⟩ = true
    · rw [if_pos hc]
      have hlt : active.length < maxConcurrent := by
        simpa [leaseCapacityOk] using hc
      match queued with
      | [] => simpa [leasePop] using h
      | jid :: rest =>
        rw [leasePop]
        simp only
        match List.lookup jid jobs with
        | none => simpa using h
        | some j0 =>
          simp only
          calc (saddL active jid).length ≤ active.length + 1 := saddL_length_le _ _
            _ ≤ maxConcurrent := by omega
    · rw [if_neg hc]
      simpa using h

/-- Concrete initial state for the C2 race: two jobs queued, two in
flight. -/
def raceQ0 : QueueState :=
  { queued := ["x", "y"]
    jobs := [("x", { job_id := "x" }), ("y", { job_id := "y" })]
    active := ["a", "b"] }

/-- C2 (counterexample to race-freedom as claimed): `get_next_job` issues
its `SCARD` capacity check and its `LPOP`/`SADD` commit as separate Redis
commands with no transaction, so two coordinators can interleave: both
evaluate `leaseCapacityOk` against `raceQ0` (2 < 3, so both proceed) and
both then run the pop/mark sequence.  The resulting in-flight count is 4,
exceeding `max_concurrent = 3`. -/
theorem get_next_job_race_counterexample :
    leaseCapacityOk raceQ0 = true ∧
    (leasePop (leasePop raceQ0 0).2 0).2.active.length = 4 ∧
    maxConcurrent < 4 :=
  ⟨by decide, by decide, by decide⟩

/-- C2 witness: the amended lease-step theorem applied to `raceQ0`. -/
theorem get_next_job_lease_step_witness : LeaseStepSpec raceQ0 0 :=
  get_next_job_lease_step raceQ0 0

/-! ## Claim C3 — frame drop policy of `put_frame` -/

/-- The two drop-policy branches of `put_frame`, as the spec states them. -/
def DropPolicySpec (q : FrameQueue) (sz n : ℕ) : Prop :=
  ((q.max_memory_bytes : ℤ) < q.current_memory + (sz : ℤ) →
    put_frame q sz n = (false, { q with dropped_frames := q.dropped_frames + 1 })) ∧
  (q.current_memory + (sz : ℤ) ≤ (q.max_memory_bytes : ℤ) →
    0 < q.max_size →
    q.frames.length = q.max_size →
    ∃ old rest, q.frames = old :: rest ∧
      put_frame q sz n =
        (true,
          { q with
              frames := rest ++ [⟨n, sz⟩]
              current_memory := q.current_memory - (old.size : ℤ) + (sz : ℤ)
              dropped_frames := q.dropped_frames + 1 }))

/-- C3 (confirmed): if admitting the frame would push the aggregate byte
total over the budget the new frame is rejected (`put_frame` returns
`False`) and `dropped_frames` is incremented; if instead the element
count is at capacity while the byte budget allows, the oldest frame is
removed, the new frame is admitted at the tail, and the dropped oldest
frame is counted in `dropped_frames`. -/
theorem put_frame_drop_policy (q : FrameQueue) (sz n : ℕ) : DropPolicySpec q sz n := by
  obtain ⟨ms, mm, frames, cm, df, pf⟩ := q
  constructor
  · intro h
    simp only [put_frame]
    rw [if_pos h]
  · intro h1 h2 h3
    simp only at h1 h2 h3
    cases frames with
    | nil =>
      simp only [List.length_nil] at h3
      omega
    | cons old rest =>
      refine ⟨old, rest, rfl, ?_⟩
      have hfull : queueFull ⟨ms, mm, old :: rest, cm, df, pf⟩ = true := by
        simp only [queueFull, decide_eq_true_eq]
        omega
      simp only [put_frame]
      rw [if_neg (not_lt.mpr h1), if_pos hfull]

/-- Concrete queue at capacity (2 frames, byte budget 100). -/
def dropQ : FrameQueue :=
  { max_size := 2
    max_memory_bytes := 100
    frames := [⟨0, 10⟩, ⟨1, 10⟩]
    current_memory := 20
    dropped_frames := 0
    processed_frames := 0 }

/-- C3 witness: the drop-policy theorem applied to a queue over budget
(size 1000) and to a queue at element capacity (size 5). -/
theorem put_frame_drop_policy_witness :
    DropPolicySpec dropQ 1000 7 ∧ DropPolicySpec dropQ 5 7 :=
  ⟨put_frame_drop_policy dropQ 1000 7, put_frame_drop_policy dropQ 5 7⟩

/-! ## Claim C4 — frame queue invariants -/

/-- The inductive invariant of `AsyncFrameQueue`. -/
def FrameInv (q : FrameQueue) : Prop :=
  q.frames.length ≤ q.max_size ∧
  q.current_memory = ((q.frames.map (fun f => (f.size : ℤ))).sum) ∧
  q.current_memory ≤ (q.max_memory_bytes : ℤ) ∧
  0 < q.max_size

theorem put_frame_preserves (q : FrameQueue) (sz n : ℕ) (h : FrameInv q) :
    FrameInv (put_frame q sz n).2 ∧
    (put_frame q sz n).2.max_size = q.max_size ∧
    (put_frame q sz n).2.max_memory_bytes = q.max_memory_bytes ∧
    (put_frame q sz n).2.dropped_frames + (put_frame q sz n).2.processed_frames
        + (put_frame q sz n).2.frames.length
      = q.dropped_frames + q.processed_frames + q.frames.length + 1 := by
  obtain ⟨ms, mm, frames, cm, df, pf⟩ := q
  obtain ⟨hlen, hsum, hbound, hpos⟩ := h
  simp only at hlen hsum hbound hpos
  by_cases hb : (mm : ℤ) < cm + (sz : ℤ)
  · simp only [put_frame]
    rw [if_pos hb]
    dsimp only
    exact ⟨⟨hlen, hsum, hbound, hpos⟩, rfl, rfl, by omega⟩
  · by_cases hf : queueFull ⟨ms, mm, frames, cm, df, pf⟩ = true
    · have hflen : ms ≤ frames.length := by
        simp only [queueFull, decide_eq_true_eq] at hf
        omega
      cases frames with
      | nil =>
        simp only [List.length_nil] at hflen
        omega
      | cons old rest =>
        simp only [put_frame]
        rw [if_neg hb, if_pos hf]
        simp only [List.map_cons, List.sum_cons] at hsum
        simp only [List.length_cons] at hlen
        refine ⟨⟨?_, ?_, ?_, hpos⟩, rfl, rfl, ?_⟩
        · show (rest ++ [⟨n, sz⟩] : List FrameData).length ≤ ms
          simp only [List.length_append, List.length_cons, List.length_nil]
          omega
        · show cm - (old.size : ℤ) + (sz : ℤ)
            = (((rest ++ [⟨n, sz⟩] : List FrameData)).map (fun f => (f.size : ℤ))).sum
          simp only [List.map_append, List.sum_append, List.map_cons, List.sum_nil,
            List.map_nil, List.sum_cons]
          omega
        · show cm - (old.size : ℤ) + (sz : ℤ) ≤ (mm : ℤ)
          omega
        · show df + 1 + pf + (rest ++ [⟨n, sz⟩] : List FrameData).length
            = df + pf + (old :: rest).length + 1
          simp only [List.length_append, List.length_cons, List.length_nil]
          omega
    · simp only [put_frame]
      rw [if_neg hb, if_neg (by simpa using hf)]
      have hflen : frames.length < ms := by
        simp only [queueFull, decide_eq_true_eq] at hf
        omega
      refine ⟨⟨?_, ?_, ?_, hpos⟩, rfl, rfl, ?_⟩
      · show (frames ++ [⟨n, sz⟩] : List FrameData).length ≤ ms
        simp only [List.length_append, List.length_cons, List.length_nil]
        omega
      · show cm + (sz : ℤ)
          = ((frames ++ [⟨n, sz⟩] : List FrameData).map (fun f => (f.size : ℤ))).sum
        simp only [List.map_append, List.sum_append, List.map_cons, List.sum_nil,
          List.map_nil, List.sum_cons]
        omega
      · show cm + (sz : ℤ) ≤ (mm : ℤ)
        omega
      · show df + pf + (frames ++ [⟨n, sz⟩] : List FrameData).length
          = df + pf + frames.length + 1
        simp only [List.length_append, List.length_cons, List.length_nil]
        omega

theorem get_frame_preserves (q : FrameQueue) (h : FrameInv q) :
    FrameInv (get_frame q).2 ∧
    (get_frame q).2.max_size = q.max_size ∧
    (get_frame q).2.max_memory_bytes = q.max_memory_bytes ∧
    (get_frame q).2.dropped_frames + (get_frame q).2.processed_frames
        + (get_frame q).2.frames.length
      = q.dropped_frames + q.processed_frames + q.frames.length := by
  obtain ⟨ms, mm, frames, cm, df, pf⟩ := q
  obtain ⟨hlen, hsum, hbound, hpos⟩ := h
  simp only at hlen hsum hbound hpos
  cases frames with
  | nil =>
    exact ⟨⟨hlen, hsum, hbound, hpos⟩, rfl, rfl, rfl⟩
  | cons fr rest =>
    simp only [get_frame]
    simp only [List.map_cons, List.sum_cons] at hsum
    simp only [List.length_cons] at hlen
    have hnn : (0 : ℤ) ≤ (rest.map (fun f => (f.size : ℤ))).sum := by
      apply List.sum_nonneg
      intro x hx
      simp only [List.mem_map] at hx
      obtain ⟨f, _, hfx⟩ := hx
      rw [← hfx]
      exact Int.ofNat_nonneg f.size
    refine ⟨⟨?_, ?_, ?_, hpos⟩, by trivial, by trivial, ?_⟩
    · show rest.length ≤ ms
      omega
    · show cm - (fr.size : ℤ) = (rest.map (fun f => (f.size : ℤ))).sum
      omega
    · show cm - (fr.size : ℤ) ≤ (mm : ℤ)
      omega
    · show df + (pf + 1) + rest.length = df + pf + (fr :: rest).length
      simp only [List.length_cons]
      omega

theorem runFrameOps_inv (ops : List FrameOp) (q : FrameQueue) (h : FrameInv q) :
    FrameInv (runFrameOps q ops) ∧
    (runFrameOps q ops).max_size = q.max_size ∧
    (runFrameOps q ops).max_memory_bytes = q.max_memory_bytes ∧
    (runFrameOps q ops).dropped_frames + (runFrameOps q ops).processed_frames
        + (runFrameOps q ops).frames.length
      = q.dropped_frames + q.processed_frames + q.frames.length + countPuts ops := by
  induction ops generalizing q with
  | nil =>
    refine ⟨h, rfl, rfl, ?_⟩
    simp only [runFrameOps, countPuts]
    omega
  | cons op rest ih =>
    cases op with
    | put sz n =>
      obtain ⟨h1, h2, h3, h4⟩ := put_frame_preserves q sz n h
      obtain ⟨g1, g2, g3, g4⟩ := ih (put_frame q sz n).2 h1
      simp only [runFrameOps, countPuts]
      exact ⟨g1, by rw [g2, h2], by rw [g3, h3], by omega⟩
    | get =>
      obtain ⟨h1, h2, h3, h4⟩ := get_frame_preserves q h
      obtain ⟨g1, g2, g3, g4⟩ := ih (get_frame q).2 h1
      simp only [runFrameOps, countPuts]
      exact ⟨g1, by rw [g2, h2], by rw [g3, h3], by omega⟩

/-- The frame-queue invariants the spec states, with the corrected
accounting identity: after any operation sequence the element count is
bounded by `max_size`, `current_memory` equals the aggregate byte size of
the queued frames and stays within `max_memory_bytes`, and
`dropped_frames + processed_frames` plus the frames still queued equals
the total number of `put_frame` offers. -/
def FrameQueueSpec (maxSize maxMem : ℕ) (ops : List FrameOp) : Prop :=
  (runFrameOps (mkFrameQueue maxSize maxMem) ops).frames.length ≤ maxSize ∧
  (runFrameOps (mkFrameQueue maxSize maxMem) ops).current_memory
    = (((runFrameOps (mkFrameQueue maxSize maxMem) ops).frames.map
        (fun f => (f.size : ℤ))).sum) ∧
  (runFrameOps (mkFrameQueue maxSize maxMem) ops).current_memory ≤ (maxMem : ℤ) ∧
  (runFrameOps (mkFrameQueue maxSize maxMem) ops).dropped_frames
      + (runFrameOps (mkFrameQueue maxSize maxMem) ops).processed_frames
      + (runFrameOps (mkFrameQueue maxSize maxMem) ops).frames.length
    = countPuts ops

/-- C4 (amended): for every operation sequence on a fresh
`AsyncFrameQueue` with a positive element cap, the element count stays at
most `max_size`, `current_memory` equals the aggregate queued bytes and
stays at most `max_memory_bytes`, and `dropped_frames + processed_frames
+ queued` equals the number of `put_frame` offers (the original
`dropped + processed = admitted` identity is refuted separately). -/
theorem frame_queue_invariants (maxSize maxMem : ℕ) (h : 0 < maxSize)
    (ops : List FrameOp) : FrameQueueSpec maxSize maxMem ops := by
  have hinit : FrameInv (mkFrameQueue maxSize maxMem) := by
    refine ⟨by simp [mkFrameQueue], by simp [mkFrameQueue], by simp [mkFrameQueue], h⟩
  obtain ⟨⟨i1, i2, i3, i4⟩, e1, e2, e3⟩ := runFrameOps_inv ops _ hinit
  have e1' : (runFrameOps (mkFrameQueue maxSize maxMem) ops).max_size = maxSize := e1
  have e2' : (runFrameOps (mkFrameQueue maxSize maxMem) ops).max_memory_bytes = maxMem := e2
  have e3' : (runFrameOps (mkFrameQueue maxSize maxMem) ops).dropped_frames
      + (runFrameOps (mkFrameQueue maxSize maxMem) ops).processed_frames
      + (runFrameOps (mkFrameQueue maxSize maxMem) ops).frames.length
      = 0 + 0 + 0 + countPuts ops := e3
  rw [e1'] at i1
  rw [e2'] at i3
  exact ⟨i1, i2, i3, by omega⟩

/-- C4 (counterexample to the accounting identity as claimed): one
admitted frame on a fresh queue leaves `dropped_frames +
processed_frames = 0` while one frame was admitted. -/
theorem frame_queue_admitted_counterexample :
    (runFrameOps (mkFrameQueue 60 377487360) [FrameOp.put 5 0]).dropped_frames
        + (runFrameOps (mkFrameQueue 60 377487360) [FrameOp.put 5 0]).processed_frames
      = 0 ∧
    countAdmitted (mkFrameQueue 60 377487360) [FrameOp.put 5 0] = 1 ∧
    (0 : ℕ) ≠ 1 :=
  ⟨by decide, by decide, by decide⟩

/-- C4 witness: the invariants at `max_size = 60`, `max_memory = 360 MiB`
for a put/put/get run. -/
theorem frame_queue_invariants_witness :
    0 < 60 ∧ FrameQueueSpec 60 377487360 [FrameOp.put 5 0, FrameOp.put 7 1, FrameOp.get] :=
  ⟨by decide, frame_queue_invariants 60 377487360 (by decide) _⟩

/-! ## Claim C7 — `send_callback` retry behaviour -/

theorem cbLoop_succ_ok (resp : ℕ → CbResp) (K i m : ℕ) (h : resp i = CbResp.ok200) :
    cbLoop resp K i (m + 1) = ⟨true, 1, []⟩ := by
  simp [cbLoop, h]

theorem cbLoop_succ_ne (resp : ℕ → CbResp) (K i m : ℕ) (h : resp i ≠ CbResp.ok200) :
    cbLoop resp K i (m + 1) =
      ⟨(cbLoop resp K (i + 1) m).success, (cbLoop resp K (i + 1) m).attempts + 1,
        (if i + 1 < K then [2 ^ i] else []) ++ (cbLoop resp K (i + 1) m).waits⟩ := by
  match hri : resp i with
  | CbResp.ok200 => exact absurd hri h
  | CbResp.httpStatus c => simp [cbLoop, hri]
  | CbResp.timeout => simp [cbLoop, hri]
  | CbResp.clientError => simp [cbLoop, hri]
  | CbResp.otherError => simp [cbLoop, hri]

theorem cbLoop_zero (resp : ℕ → CbResp) (K i : ℕ) :
    cbLoop resp K i 0 = ⟨false, 0, []⟩ := rfl

theorem cbLoop_spec (resp : ℕ → CbResp) (K : ℕ) :
    ∀ rem i, i + rem = K →
      (cbLoop resp K i rem).attempts ≤ rem ∧
      ((cbLoop resp K i rem).success = true ↔
        ∃ t, t < rem ∧ resp (i + t) = CbResp.ok200 ∧
          ∀ u, u < t → resp (i + u) ≠ CbResp.ok200) ∧
      ((cbLoop resp K i rem).success = false → (cbLoop resp K i rem).attempts = rem) ∧
      (1 ≤ rem → 1 ≤ (cbLoop resp K i rem).attempts) ∧
      (cbLoop resp K i rem).waits
        = (List.range ((cbLoop resp K i rem).attempts - 1)).map (fun j => 2 ^ (i + j)) := by
  intro rem
  induction rem with
  | zero =>
    intro i _
    rw [cbLoop_zero]
    refine ⟨Nat.le_refl 0, ?_, fun _ => rfl, by omega, by simp⟩
    simp
  | succ m ih =>
    intro i hik
    by_cases hr : resp i = CbResp.ok200
    · rw [cbLoop_succ_ok resp K i m hr]
      refine ⟨show 1 ≤ m + 1 by omega, ?_, by simp, fun _ => le_refl 1, by simp⟩
      constructor
      · intro _
        exact ⟨0, by omega, by simpa using hr, fun u hu => absurd hu (by omega)⟩
      · intro _
        rfl
    · obtain ⟨ia, isucc, ifail, ipos, iwaits⟩ := ih (i + 1) (by omega)
      rw [cbLoop_succ_ne resp K i m hr]
      refine ⟨?_, ?_, ?_, ?_, ?_⟩
      · show (cbLoop resp K (i + 1) m).attempts + 1 ≤ m + 1
        omega
      · show (cbLoop resp K (i + 1) m).success = true ↔ _
        rw [isucc]
        constructor
        · rintro ⟨t, ht, hok, hpre⟩
          refine ⟨t + 1, by omega, ?_, ?_⟩
          · have he : i + (t + 1) = i + 1 + t := by omega
            rw [he]
            exact hok
          · intro u hu
            match u with
            | 0 => simpa using hr
            | v + 1 =>
              have hv := hpre v (by omega)
              have he : i + (v + 1) = i + 1 + v := by omega
              rw [he]
              exact hv
        · rintro ⟨t, ht, hok, hpre⟩
          match t, hok with
          | 0, hok => exact absurd (by simpa using hok) hr
          | v + 1, hok =>
            refine ⟨v, by omega, ?_, ?_⟩
            · have he : i + 1 + v = i + (v + 1) := by omega
              rw [he]
              exact hok
            · intro u hu
              have hv := hpre (u + 1) (by omega)
              have he : i + 1 + u = i + (u + 1) := by omega
              rw [he]
              exact hv
      · intro hfa
        have : (cbLoop resp K (i + 1) m).success = false := hfa
        show (cbLoop resp K (i + 1) m).attempts + 1 = m + 1
        rw [ifail this]
      · intro _
        show 1 ≤ (cbLoop resp K (i + 1) m).attempts + 1
        omega
      · show (if i + 1 < K then [2 ^ i] else []) ++ (cbLoop resp K (i + 1) m).waits
          = (List.range ((cbLoop resp K (i + 1) m).attempts + 1 - 1)).map (fun j => 2 ^ (i + j))
        rw [Nat.add_sub_cancel]
        match m, hik with
        | 0, hik =>
          rw [cbLoop_zero]
          rw [if_neg (by omega)]
          simp
        | m1 + 1, hik =>
          rw [if_pos (by omega)]
          have ha : 1 ≤ (cbLoop resp K (i + 1) (m1 + 1)).attempts := ipos (by omega)
          obtain ⟨a, ha2⟩ : ∃ a, (cbLoop resp K (i + 1) (m1 + 1)).attempts = a + 1 :=
            ⟨(cbLoop resp K (i + 1) (m1 + 1)).attempts - 1, by omega⟩
          rw [iwaits, ha2, Nat.add_sub_cancel, List.range_succ_eq_map]
          simp only [List.map_cons, List.map_map, List.cons_append, List.nil_append]
          have hhead : (2 : ℕ) ^ (i + 0) = 2 ^ i := by rw [Nat.add_zero]
          rw [hhead]
          refine congrArg (fun l => 2 ^ i :: l) ?_
          apply List.map_congr_left
          intro j _
          show 2 ^ (i + 1 + j) = 2 ^ (i + (j + 1))
          exact congrArg (fun e => 2 ^ e) (by omega)

/-- The retry behaviour of `send_callback`, with the effective attempt
budget made explicit. -/
def SendCallbackSpec (dflt : ℕ) (rc : Option ℕ) (resp : ℕ → CbResp) : Prop :=
  (send_callback dflt rc resp).attempts ≤ effectiveRetries dflt rc ∧
  ((send_callback dflt rc resp).success = true ↔
    ∃ t, t < effectiveRetries dflt rc ∧ resp t = CbResp.ok200 ∧
      ∀ u, u < t → resp u ≠ CbResp.ok200) ∧
  ((send_callback dflt rc resp).success = false →
    (send_callback dflt rc resp).attempts = effectiveRetries dflt rc) ∧
  (send_callback dflt rc resp).waits
    = (List.range ((send_callback dflt rc resp).attempts - 1)).map (fun j => 2 ^ j) ∧
  (rc = none → effectiveRetries dflt rc = dflt) ∧
  (rc = some 0 → effectiveRetries dflt rc = dflt) ∧
  (∀ k, rc = some k → 0 < k → effectiveRetries dflt rc = k)

/-- C7 (amended): `send_callback` makes at most `K` HTTP POST attempts,
where `K` is the passed `retry_count` when that is a positive number and
the service default (3) when it is omitted **or zero** (`retry_count or
self.retry_count` treats `0` as falsy); it returns `True` exactly when
some attempt within the budget is answered with HTTP 200 and stops
there; any non-200 status, timeout or client error is a failed attempt;
it sleeps `2^attempt` seconds after each failed non-final attempt; and
after exhausting all attempts it returns `False` without raising. -/
theorem send_callback_spec (dflt : ℕ) (rc : Option ℕ) (resp : ℕ → CbResp) :
    SendCallbackSpec dflt rc resp := by
  obtain ⟨ia, isucc, ifail, _, iwaits⟩ :=
    cbLoop_spec resp (effectiveRetries dflt rc) (effectiveRetries dflt rc) 0 (by omega)
  refine ⟨ia, ?_, ifail, ?_, fun h => by simp [effectiveRetries, h],
    fun h => by simp [effectiveRetries, h], ?_⟩
  · simpa using isucc
  · simpa using iwaits
  · intro k hk hpos
    simp [effectiveRetries, hk]
    omega

/-- C7 (counterexample as stated): with `retry_count = 0` passed
explicitly, `retry_attempts = retry_count or self.retry_count` falls back
to the default 3, so three POST attempts are made even though the claim
allows at most `retry_count = 0`. -/
theorem send_callback_zero_counterexample :
    (send_callback 3 (some 0) (fun _ => CbResp.timeout)).attempts = 3 ∧
    ¬ ((3 : ℕ) ≤ 0) :=
  ⟨rfl, by decide⟩

/-- C7 witness: the spec at the default budget with success on the second
attempt. -/
theorem send_callback_spec_witness :
    SendCallbackSpec 3 none (fun i => if i = 1 then CbResp.ok200 else CbResp.timeout) :=
  send_callback_spec 3 none _

/-! ## Claim C8 — recovery policy -/

/-- The behaviour of `can_recover` and `attempt_partial_merge` relative to
the state `ErrorRecovery` actually tracks. -/
def RecoverySpec (s : RecoveryState) : Prop :=
  (can_recover s = true ↔
    (s.retry_counts.length = 0 ∨
      4 * s.failed_segments.length < s.retry_counts.length)) ∧
  (∀ segs r, attempt_partial_merge s segs = Except.ok r →
    r.partialFlag = true ∧
    r.segments_merged = (successfulSegs segs).length ∧
    r.segments_failed = s.failed_segments.length) ∧
  (∀ segs, (∃ e, attempt_partial_merge s segs = Except.error e) ↔ successfulSegs segs = [])

/-- C8 (amended): `can_recover` returns `True` exactly when fewer than
25% of the segments tracked in `retry_counts` are failed (vacuously when
nothing is tracked) — the denominator is the set of segments that went
through `handle_segment_failure`, not all of the job's segments; a
partial merge is flagged `partial=true` and counts only segments whose
status is `completed` with a truthy file path. -/
theorem can_recover_spec (s : RecoveryState) : RecoverySpec s := by
  refine ⟨?_, ?_, ?_⟩
  · unfold can_recover
    by_cases h : s.retry_counts.length = 0
    · simp [h]
    · rw [if_neg h]
      simp only [decide_eq_true_eq]
      have ht : (0 : ℚ) < (s.retry_counts.length : ℚ) := by
        exact_mod_cast Nat.pos_of_ne_zero h
      rw [div_lt_div_iff₀ ht (by norm_num : (0 : ℚ) < 4)]
      rw [one_mul]
      constructor
      · intro hlt
        right
        have : ((s.failed_segments.length * 4 : ℕ) : ℚ) < ((s.retry_counts.length : ℕ) : ℚ) := by
          push_cast
          linarith
        have := Nat.cast_lt.mp this
        omega
      · intro hor
        rcases hor with h0 | h4
        · exact absurd h0 h
        · have : ((s.failed_segments.length * 4 : ℕ) : ℚ) < ((s.retry_counts.length : ℕ) : ℚ) := by
            exact_mod_cast (by omega : s.failed_segments.length * 4 < s.retry_counts.length)
          push_cast at this
          linarith
  · intro segs r hr
    unfold attempt_partial_merge at hr
    by_cases hs : (successfulSegs segs).isEmpty
    · rw [if_pos hs] at hr
      cases hr
    · rw [if_neg hs] at hr
      simp only [Except.ok.injEq] at hr
      rw [← hr]
      exact ⟨rfl, rfl, rfl⟩
  · intro segs
    unfold attempt_partial_merge
    by_cases hs : (successfulSegs segs).isEmpty
    · rw [if_pos hs]
      simp [List.isEmpty_iff] at hs
      simp [hs]
    · rw [if_neg hs]
      simp [List.isEmpty_iff] at hs
      simp [hs]

/-- The claim C8 as stated: recovery possible iff fewer than 25% of the
**job's** segments (there are `jobSegments` of them) have failed, or
nothing is tracked. -/
def ClaimC8AsStated (jobSegments : ℕ) (s : RecoveryState) : Prop :=
  can_recover s = true ↔
    (s.retry_counts.length = 0 ∨ 4 * s.failed_segments.length < jobSegments)

/-- A failed segment used to build the counterexample state. -/
def cexSeg8 : SegmentInfo :=
  { worker_id := 0
    segment_id := 0
    start_time := 0
    end_time := 0
    file_path := ""
    file_size := 0
    frames_processed := 0
    status := "failed" }

/-- Recovery state after a single `handle_segment_failure` with no retry
callback: one tracked segment, one failed segment. -/
def cexRec8 : RecoveryState :=
  (handle_segment_failure { max_retries := 3 } cexSeg8 false false).2

/-- C8 (counterexample as stated): in a job with 8 segments of which only
one failed (12.5% < 25%), `can_recover` still returns `False`, because
the code divides by `len(retry_counts)` — the number of segments that
ever entered `handle_segment_failure` (here 1) — not by the number of the
job's segments. -/
theorem can_recover_counterexample : ¬ ClaimC8AsStated 8 cexRec8 := by
  unfold ClaimC8AsStated
  with_unfolding_all decide

/-- C8 witness: the amended recovery spec at the concrete state. -/
theorem can_recover_spec_witness : RecoverySpec cexRec8 :=
  can_recover_spec cexRec8

/-! ## Claim C10 — `is_merging` is reset on every exit path -/

theorem perform_merge_ne_alreadyMerging (jobId : String) (segs : List SegmentInfo)
    (outPath : String) (fs : FSState) (enc : Bool) (es : ℕ) :
    (perform_merge jobId segs outPath fs enc es).1 ≠ Except.error MergeError.alreadyMerging := by
  unfold perform_merge
  split
  · simp
  · split
    · simp
    · split <;> simp

theorem mergeBody_ne_alreadyMerging (s : MergerState) (fs : FSState) (out : Option String)
    (enc : Bool) (es : ℕ) :
    (mergeBody s fs out enc es).1 ≠ Except.error MergeError.alreadyMerging := by
  unfold mergeBody
  split
  · split
    · simp
    · simp
  · exact perform_merge_ne_alreadyMerging _ _ _ _ _ _

/-- C10 (confirmed): starting from any state in which no merge is in
progress, `merge_segments` leaves `is_merging = False` on every exit path
(readiness failure, failed segments, missing files, encoder failure, or
success), and a subsequent call is therefore never rejected with
"Merge already in progress" because of the previous call. -/
theorem merge_segments_resets_flag (s : MergerState) (fs : FSState) (out : Option String)
    (enc : Bool) (es : ℕ) (h : s.is_merging = false) :
    (merge_segments s fs out enc es).2.1.is_merging = false ∧
    ∀ fs2 out2 enc2 es2,
      (merge_segments (merge_segments s fs out enc es).2.1 fs2 out2 enc2 es2).1 ≠
        Except.error MergeError.alreadyMerging := by
  have hstate : (merge_segments s fs out enc es).2.1 = { s with is_merging := false } := by
    unfold merge_segments
    rw [if_neg (by simp [h])]
  refine ⟨by rw [hstate], ?_⟩
  intro fs2 out2 enc2 es2
  rw [hstate]
  unfold merge_segments
  rw [if_neg (by simp)]
  exact mergeBody_ne_alreadyMerging _ _ _ _ _

/-- A fresh merger state used for the C10 witness. -/
def cexM10 : MergerState :=
  { job_id := "job10", segments := [], expected_segments := 2, is_merging := false }

/-- C10 witness: the flag-reset theorem at a concrete state (the call
fails with "Not all segments are ready", yet the flag is reset and the
next call is not rejected as already in progress). -/
theorem merge_segments_resets_flag_witness :
    cexM10.is_merging = false ∧
    ((merge_segments cexM10 ⟨[]⟩ none true 0).2.1.is_merging = false ∧
      ∀ fs2 out2 enc2 es2,
        (merge_segments (merge_segments cexM10 ⟨[]⟩ none true 0).2.1 fs2 out2 enc2 es2).1 ≠
          Except.error MergeError.alreadyMerging) :=
  ⟨rfl, merge_segments_resets_flag cexM10 ⟨[]⟩ none true 0 rfl⟩

/-! ## Claim C6 — `merge_segments` result and error behaviour -/

theorem foldl_max_init_le (l : List SegmentInfo) :
    ∀ a : ℚ, a ≤ l.foldl (fun m x => max m x.end_time) a := by
  induction l with
  | nil => intro a; exact le_refl a
  | cons x xs ih =>
    intro a
    calc a ≤ max a x.end_time := le_max_left _ _
      _ ≤ _ := ih (max a x.end_time)

theorem foldl_max_mem_le (l : List SegmentInfo) :
    ∀ a : ℚ, ∀ x ∈ l, x.end_time ≤ l.foldl (fun m x => max m x.end_time) a := by
  induction l with
  | nil => intro a x hx; cases hx
  | cons y ys ih =>
    intro a x hx
    rcases List.mem_cons.mp hx with h | h
    · subst h
      calc x.end_time ≤ max a x.end_time := le_max_right _ _
        _ ≤ _ := foldl_max_init_le ys (max a x.end_time)
    · exact ih (max a y.end_time) x h

theorem foldl_max_cases (l : List SegmentInfo) :
    ∀ a : ℚ, l.foldl (fun m x => max m x.end_time) a = a ∨
      ∃ x ∈ l, l.foldl (fun m x => max m x.end_time) a = x.end_time := by
  induction l with
  | nil => intro a; exact Or.inl rfl
  | cons y ys ih =>
    intro a
    rcases ih (max a y.end_time) with h | ⟨x, hx, hfx⟩
    · rcases max_choice a y.end_time with hm | hm
      · left
        rw [List.foldl_cons, h, hm]
      · right
        exact ⟨y, List.mem_cons_self y ys, by rw [List.foldl_cons, h, hm]⟩
    · right
      exact ⟨x, List.mem_cons_of_mem y hx, hfx⟩

theorem maxSegEnd_ge (l : List SegmentInfo) (x : SegmentInfo) (hx : x ∈ l) :
    x.end_time ≤ maxSegEnd l := by
  match l, hx with
  | s0 :: rest, hx =>
    rcases List.mem_cons.mp hx with h | h
    · subst h
      exact foldl_max_init_le rest x.end_time
    · exact foldl_max_mem_le rest s0.end_time x h

theorem maxSegEnd_mem (l : List SegmentInfo) (hl : l ≠ []) :
    ∃ x ∈ l, maxSegEnd l = x.end_time := by
  match l, hl with
  | s0 :: rest, _ =>
    rcases foldl_max_cases rest s0.end_time with h | ⟨x, hx, hfx⟩
    · exact ⟨s0, List.mem_cons_self s0 rest, h⟩
    · exact ⟨x, List.mem_cons_of_mem s0 hx, hfx⟩

theorem mergeBody_ok_run (s : MergerState) (fs : FSState) (out : Option String) (es : ℕ)
    (hready : are_all_segments_ready s fs = true)
    (s0 : SegmentInfo) (tail : List SegmentInfo)
    (hL : List.insertionSort (fun a b => a.worker_id ≤ b.worker_id)
        (s.segments.map Prod.snd) = s0 :: tail)
    (hfind : List.find? (fun sg => !fsExists fs sg.file_path) (s0 :: tail) = none) :
    mergeBody s fs out true es =
      (Except.ok
        { success := true
          output_path := out.getD ("final_" ++ s.job_id ++ ".mp4")
          file_size := es
          segments_merged := (s0 :: tail).length
          total_frames := ((s0 :: tail).map (fun sg => sg.frames_processed)).sum
          duration := maxSegEnd (s0 :: tail)
          merge_time := ((s0 :: tail).getLastD s0).completed_at - s0.created_at },
       fsDel (fsSet (fsSet fs ("concat_" ++ s.job_id ++ ".txt") 0)
         (out.getD ("final_" ++ s.job_id ++ ".mp4")) es) ("concat_" ++ s.job_id ++ ".txt")) := by
  simp only [mergeBody]
  rw [if_neg (by simp [hready]), hL]
  simp only [perform_merge]
  rw [hfind]
  have hlook : List.lookup (out.getD ("final_" ++ s.job_id ++ ".mp4"))
      (fsSet (fsSet fs ("concat_" ++ s.job_id ++ ".txt") 0)
        (out.getD ("final_" ++ s.job_id ++ ".mp4")) es).files = some es := by
    unfold fsSet
    exact assocSet_lookup _ _ _
  simp only [hlook, Option.getD_some]
  try rfl

theorem mergeOkCase (s : MergerState) (fs : FSState) (out : Option String)
    (enc : Bool) (es : ℕ)
    (hbody : merge_segments s fs out enc es
      = ((mergeBody { s with is_merging := true } fs out enc es).1,
         { s with is_merging := false },
         (mergeBody { s with is_merging := true } fs out enc es).2))
    (hsegs : ({ s with is_merging := true } : MergerState).segments = s.segments)
    (hexp : ({ s with is_merging := true } : MergerState).expected_segments
      = s.expected_segments) :
    ∀ r, (merge_segments s fs out enc es).1 = Except.ok r →
      r.success = true ∧
      s.expected_segments ≤ s.segments.length ∧
      r.segments_merged = s.segments.length ∧
      r.output_path = out.getD ("final_" ++ s.job_id ++ ".mp4") ∧
      r.file_size = es ∧
      r.total_frames = ((s.segments.map Prod.snd).map (fun sg => sg.frames_processed)).sum ∧
      (∀ kv ∈ s.segments, kv.2.end_time ≤ r.duration) ∧
      (∃ kv ∈ s.segments, r.duration = kv.2.end_time) ∧
      (∀ kv ∈ s.segments, kv.2.file_path ≠ "concat_" ++ s.job_id ++ ".txt" →
        fsExists (merge_segments s fs out enc es).2.2 kv.2.file_path = true) := by
  intro r hr
  rw [hbody] at hr
  replace hr : (mergeBody { s with is_merging := true } fs out enc es).1 = Except.ok r := hr
  -- readiness must hold
  have hready2 : are_all_segments_ready { s with is_merging := true } fs = true := by
    cases har : are_all_segments_ready { s with is_merging := true } fs
    · exfalso
      simp only [mergeBody] at hr
      rw [if_pos har] at hr
      split at hr <;> simp at hr
    · rfl
  have hready3 := hready2
  unfold are_all_segments_ready at hready3
  rw [hsegs, hexp] at hready3
  by_cases hlen : s.segments.length < s.expected_segments
  · rw [if_pos hlen] at hready3
    cases hready3
  · rw [if_neg hlen, List.all_eq_true] at hready3
    have hall : ∀ kv ∈ s.segments, kv.2.status = "completed" ∧ kv.2.file_path ≠ "" ∧
        fsExists fs kv.2.file_path = true := by
      intro kv hkv
      have := hready3 kv hkv
      simpa using this
    -- peel mergeBody down to perform_merge
    have hb2 : (perform_merge s.job_id
        (List.insertionSort (fun a b => a.worker_id ≤ b.worker_id)
          (s.segments.map Prod.snd))
        (out.getD ("final_" ++ s.job_id ++ ".mp4")) fs enc es).1 = Except.ok r := by
      simp only [mergeBody] at hr
      rw [if_neg (by simp [hready2])] at hr
      exact hr
    have hperm : (List.insertionSort (fun a b => a.worker_id ≤ b.worker_id)
        (s.segments.map Prod.snd)).Perm (s.segments.map Prod.snd) :=
      List.perm_insertionSort _ _
    cases hfind : List.find? (fun sg => !fsExists fs sg.file_path)
        (List.insertionSort (fun a b => a.worker_id ≤ b.worker_id)
          (s.segments.map Prod.snd)) with
    | some sg =>
      exfalso
      simp only [perform_merge] at hb2
      rw [hfind] at hb2
      simp at hb2
    | none =>
      cases henc : enc with
      | false =>
        exfalso
        subst henc
        simp only [perform_merge] at hb2
        rw [hfind] at hb2
        simp at hb2
      | true =>
        subst henc
        rcases hLs : List.insertionSort (fun a b => a.worker_id ≤ b.worker_id)
            (s.segments.map Prod.snd) with _ | ⟨s0, tail⟩
        · exfalso
          rw [hLs] at hb2 hfind
          simp only [perform_merge] at hb2
          rw [hfind] at hb2
          simp at hb2
        · rw [hLs] at hfind hperm
          have hrun := mergeBody_ok_run { s with is_merging := true } fs out es hready2 s0 tail
            (by rw [hsegs]; exact hLs) hfind
          rw [hrun] at hr
          replace hr : Except.ok _ = Except.ok r := hr
          have hrr := (Except.ok.injEq _ _).mp hr
          subst hrr
          have hlenL : (s0 :: tail).length = s.segments.length := by
            rw [hperm.length_eq, List.length_map]
          refine ⟨rfl, by omega, hlenL, rfl, rfl, ?_, ?_, ?_, ?_⟩
          · show ((s0 :: tail).map (fun sg => sg.frames_processed)).sum = _
            exact (hperm.map (fun sg => sg.frames_processed)).sum_eq
          · intro kv hkv
            have hmem : kv.2 ∈ s0 :: tail := by
              rw [hperm.mem_iff]
              exact List.mem_map_of_mem Prod.snd hkv
            exact maxSegEnd_ge _ _ hmem
          · obtain ⟨x, hx, hmx⟩ := maxSegEnd_mem (s0 :: tail) (by simp)
            have hx2 : x ∈ s.segments.map Prod.snd := hperm.mem_iff.mp hx
            obtain ⟨kv, hkv, hkvx⟩ := List.mem_map.mp hx2
            exact ⟨kv, hkv, by rw [hmx, hkvx]⟩
          · intro kv hkv hkconcat
            rw [hbody]
            replace hkconcat : kv.2.file_path ≠ "concat_" ++
                ({ s with is_merging := true } : MergerState).job_id ++ ".txt" := hkconcat
            show fsExists (mergeBody { s with is_merging := true } fs out true es).2
                kv.2.file_path = true
            rw [hrun]
            unfold fsExists fsDel fsSet
            rw [lookup_filter_ne _ _ _ hkconcat]
            by_cases hout : kv.2.file_path
                = out.getD ("final_" ++ ({ s with is_merging := true } : MergerState).job_id
                  ++ ".mp4")
            · rw [hout, assocSet_lookup]
              rfl
            · rw [assocSet_lookup_ne _ _ _ _ hout,
                assocSet_lookup_ne _ _ _ _ hkconcat]
              have := (hall kv hkv).2.2
              unfold fsExists at this
              exact this

/-- What `merge_segments` guarantees, per C6 as amended. -/
def MergeSpec (s : MergerState) (fs : FSState) (out : Option String)
    (enc : Bool) (es : ℕ) : Prop :=
  (s.segments.length < s.expected_segments →
    ∃ e, (merge_segments s fs out enc es).1 = Except.error e) ∧
  ((∃ kv ∈ s.segments, kv.2.status ≠ "completed") →
    ∃ e, (merge_segments s fs out enc es).1 = Except.error e) ∧
  ((∃ kv ∈ s.segments, fsExists fs kv.2.file_path = false) →
    ∃ e, (merge_segments s fs out enc es).1 = Except.error e) ∧
  (∀ r, (merge_segments s fs out enc es).1 = Except.ok r →
    r.success = true ∧
    s.expected_segments ≤ s.segments.length ∧
    r.segments_merged = s.segments.length ∧
    r.output_path = out.getD ("final_" ++ s.job_id ++ ".mp4") ∧
    r.file_size = es ∧
    r.total_frames = ((s.segments.map Prod.snd).map (fun sg => sg.frames_processed)).sum ∧
    (∀ kv ∈ s.segments, kv.2.end_time ≤ r.duration) ∧
    (∃ kv ∈ s.segments, r.duration = kv.2.end_time) ∧
    (∀ kv ∈ s.segments, kv.2.file_path ≠ "concat_" ++ s.job_id ++ ".txt" →
      fsExists (merge_segments s fs out enc es).2.2 kv.2.file_path = true))

/-- C6 (amended): `merge_segments` raises whenever fewer than the expected
`N` segments are registered, or some registered segment is not
`completed`, or some registered segment's file does not exist; on success
the result reports the output path, the merged file size, a
`segments_merged` equal to the number of **registered** segments (which
is at least, but not necessarily equal to, `N`), `total_frames` equal to
the sum of per-segment `frames_processed`, and `duration` equal to the
maximum segment `end_time`; and the segment files are **not** deleted by
`merge_segments` (only the temporary concat list is): cleanup is a
separate `cleanup_segments` method invoked by the render engine. -/
theorem merge_segments_spec (s : MergerState) (fs : FSState) (out : Option String)
    (enc : Bool) (es : ℕ) (h : s.is_merging = false) : MergeSpec s fs out enc es := by
  have hbody : merge_segments s fs out enc es
      = ((mergeBody { s with is_merging := true } fs out enc es).1,
         { s with is_merging := false },
         (mergeBody { s with is_merging := true } fs out enc es).2) := by
    unfold merge_segments
    rw [if_neg (by simp [h])]
  have hsegs : ({ s with is_merging := true } : MergerState).segments = s.segments := rfl
  have hexp : ({ s with is_merging := true } : MergerState).expected_segments
      = s.expected_segments := rfl
  refine ⟨?_, ?_, ?_, ?_⟩
  · intro hlen
    rw [hbody]
    have hready : are_all_segments_ready { s with is_merging := true } fs = false := by
      unfold are_all_segments_ready
      rw [if_pos (by rw [hsegs, hexp]; exact hlen)]
    unfold mergeBody
    rw [if_pos hready]
    split
    · exact ⟨_, rfl⟩
    · exact ⟨_, rfl⟩
  · intro hbad
    rw [hbody]
    have hready : are_all_segments_ready { s with is_merging := true } fs = false := by
      cases har : are_all_segments_ready { s with is_merging := true } fs
      · rfl
      · exfalso
        unfold are_all_segments_ready at har
        rw [hsegs, hexp] at har
        by_cases hlen : s.segments.length < s.expected_segments
        · rw [if_pos hlen] at har
          cases har
        · rw [if_neg hlen, List.all_eq_true] at har
          obtain ⟨kv, hkv, hst⟩ := hbad
          have := har kv hkv
          simp only [decide_eq_true_eq] at this
          exact hst this.1
    unfold mergeBody
    rw [if_pos hready]
    split
    · exact ⟨_, rfl⟩
    · exact ⟨_, rfl⟩
  · intro hbad
    rw [hbody]
    have hready : are_all_segments_ready { s with is_merging := true } fs = false := by
      cases har : are_all_segments_ready { s with is_merging := true } fs
      · rfl
      · exfalso
        unfold are_all_segments_ready at har
        rw [hsegs, hexp] at har
        by_cases hlen : s.segments.length < s.expected_segments
        · rw [if_pos hlen] at har
          cases har
        · rw [if_neg hlen, List.all_eq_true] at har
          obtain ⟨kv, hkv, hst⟩ := hbad
          have := har kv hkv
          simp only [decide_eq_true_eq] at this
          rw [hst] at this
          exact Bool.false_ne_true this.2.2
    unfold mergeBody
    rw [if_pos hready]
    split
    · exact ⟨_, rfl⟩
    · exact ⟨_, rfl⟩
  · exact mergeOkCase s fs out enc es hbody hsegs hexp

/-- A completed segment with an existing file, for the C6 counterexample. -/
def cexSegA : SegmentInfo :=
  { worker_id := 0, segment_id := 0, start_time := 0, end_time := 3,
    file_path := "a.mp4", file_size := 10, frames_processed := 90, status := "completed" }

/-- A second completed segment with an existing file. -/
def cexSegB : SegmentInfo :=
  { worker_id := 1, segment_id := 1, start_time := 3, end_time := 5,
    file_path := "b.mp4", file_size := 20, frames_processed := 60, status := "completed" }

/-- Merger expecting 1 segment but holding 2 registered completed ones. -/
def cexM6 : MergerState :=
  { job_id := "j6"
    segments := [(0, cexSegA), (1, cexSegB)]
    expected_segments := 1
    is_merging := false }

/-- File system containing both segment files. -/
def cexFs6 : FSState := ⟨[("a.mp4", 10), ("b.mp4", 20)]⟩

/-- C6 (counterexample as stated): with `expected_segments = 1` and two
registered completed segments, the merge succeeds with
`segments_merged = 2 ≠ 1 = N`, and both segment files still exist
afterwards — `merge_segments` deletes only its temporary concat list,
never the segment files. -/
theorem merge_segments_counterexample :
    ((merge_segments cexM6 cexFs6 none true 99).1.toOption.map
      (fun r => r.segments_merged)) = some 2 ∧
    (2 : ℕ) ≠ 1 ∧
    fsExists (merge_segments cexM6 cexFs6 none true 99).2.2 "a.mp4" = true ∧
    fsExists (merge_segments cexM6 cexFs6 none true 99).2.2 "b.mp4" = true := by
  refine ⟨?_, by decide, ?_, ?_⟩ <;> with_unfolding_all decide

/-- C6 witness: the amended merge spec at a concrete ready state. -/
theorem merge_segments_spec_witness :
    cexM6.is_merging = false ∧ MergeSpec cexM6 cexFs6 none true 99 :=
  ⟨rfl, merge_segments_spec cexM6 cexFs6 none true 99 rfl⟩

/-! ## Claim C5 — per-second complexity values -/

/-- Spec-side: does the cue's style indicate a CJK font? -/
def specFontCJK (c : Cue) : Bool :=
  strContains ((c.style.bind CueStyle.fontFamily).getD "") "CJK"

/-- Spec-side: animation-family score (`1.5` for elastic/bounce, `0.5`
for fade/slide, `0` otherwise). -/
def specAnimScore (c : Cue) : ℚ :=
  if (c.animation.bind CueAnim.type).getD "" = "elastic"
      ∨ (c.animation.bind CueAnim.type).getD "" = "bounce" then 3 / 2
  else if (c.animation.bind CueAnim.type).getD "" = "fade"
      ∨ (c.animation.bind CueAnim.type).getD "" = "slide" then 1 / 2
  else 0

/-- Spec-side: `0.3` for an emotion that is present and not `neutral`. -/
def specEmotionScore (c : Cue) : ℚ :=
  match c.emotion with
  | some e => if e ≠ "" ∧ e ≠ "neutral" then 3 / 10 else 0
  | none => 0

/-- Spec-side per-cue score: `1.0` base + `0.01` per text character +
`0.5` for a CJK font + animation-family score + emotion score. -/
def specCueScore (c : Cue) : ℚ :=
  1 + (c.text.length : ℚ) * (1 / 100) + (if specFontCJK c then 1 / 2 else 0)
    + specAnimScore c + specEmotionScore c

theorem cueContribution_eq_specCueScore (c : Cue) : cueContribution c = specCueScore c := by
  obtain ⟨cs, ce, tx, sty, anim, emo⟩ := c
  unfold cueContribution specCueScore specFontCJK specAnimScore specEmotionScore
  have hcjk0 : strContains "" "CJK" = false := by decide
  cases sty with
  | none =>
    cases anim with
    | none => simp [hcjk0, Option.bind]
    | some an =>
      cases han : an.type with
      | none => simp [hcjk0, Option.bind, han]
      | some t => simp [hcjk0, Option.bind, han]
  | some st =>
    cases hff : st.fontFamily with
    | none =>
      cases anim with
      | none => simp [hcjk0, Option.bind, hff]
      | some an =>
        cases han : an.type with
        | none => simp [hcjk0, Option.bind, hff, han]
        | some t => simp [hcjk0, Option.bind, hff, han]
    | some ff =>
      cases anim with
      | none => simp [Option.bind, hff]
      | some an =>
        cases han : an.type with
        | none => simp [Option.bind, hff, han]
        | some t => simp [Option.bind, hff, han]

/-- The cues active at whole second `t` with the **closed** window the
code uses (`start <= t <= end`). -/
def specActiveClosed (cues : List Cue) (t : ℤ) : List Cue :=
  cues.filter (fun c => decide (c.start ≤ (t : ℚ) ∧ (t : ℚ) ≤ c.endTime))

/-- The per-second complexity the spec describes, over the closed window:
sum of per-cue scores, multiplied by `1 + 0.5·(k−1)` when `k ≥ 2` cues
are active. -/
def specComplexityClosed (cues : List Cue) (t : ℤ) : ℚ :=
  ((specActiveClosed cues t).map specCueScore).sum *
    (if 2 ≤ (specActiveClosed cues t).length then
      1 + (1 / 2 : ℚ) * (((specActiveClosed cues t).length : ℚ) - 1)
    else 1)

/-- The cues active at `t` with the **half-open** window the claim
states (`start <= t < end`). -/
def specActiveHalfOpen (cues : List Cue) (t : ℤ) : List Cue :=
  cues.filter (fun c => decide (c.start ≤ (t : ℚ) ∧ (t : ℚ) < c.endTime))

/-- The per-second complexity as the claim states it (half-open window). -/
def specComplexityHalfOpen (cues : List Cue) (t : ℤ) : ℚ :=
  ((specActiveHalfOpen cues t).map specCueScore).sum *
    (if 2 ≤ (specActiveHalfOpen cues t).length then
      1 + (1 / 2 : ℚ) * (((specActiveHalfOpen cues t).length : ℚ) - 1)
    else 1)

theorem foldl_add_eq_sum (l : List Cue) :
    ∀ a : ℚ, l.foldl (fun acc c => acc + cueContribution c) a
      = a + (l.map cueContribution).sum := by
  induction l with
  | nil => intro a; simp
  | cons c rest ih =>
    intro a
    simp only [List.foldl_cons, List.map_cons, List.sum_cons]
    rw [ih (a + cueContribution c)]
    ring

theorem complexityAt_eq_spec (cues : List Cue) (t : ℤ) :
    complexityAt cues t = specComplexityClosed cues t := by
  show (if 1 < (activeCuesAt cues t).length then
      (List.foldl (fun acc c => acc + cueContribution c) 0 (activeCuesAt cues t))
        * (1 + (1 / 2 : ℚ) * (((activeCuesAt cues t).length : ℚ) - 1))
    else List.foldl (fun acc c => acc + cueContribution c) 0 (activeCuesAt cues t)) = _
  have hact : activeCuesAt cues t = specActiveClosed cues t := rfl
  unfold specComplexityClosed
  rw [hact]
  rw [foldl_add_eq_sum, zero_add]
  have hmap : (specActiveClosed cues t).map cueContribution
      = (specActiveClosed cues t).map specCueScore :=
    List.map_congr_left (fun c _ => cueContribution_eq_specCueScore c)
  rw [hmap]
  by_cases hl : 1 < (specActiveClosed cues t).length
  · rw [if_pos hl, if_pos (by omega)]
  · rw [if_neg hl, if_neg (by omega), mul_one]

theorem lookup_map_self (f : ℤ → ℚ) (l : List ℤ) (t : ℤ) (ht : t ∈ l) :
    List.lookup t (l.map (fun s => (s, f s))) = some (f t) := by
  induction l with
  | nil => cases ht
  | cons s rest ih =>
    rcases List.mem_cons.mp ht with h | h
    · subst h
      simp [List.lookup]
    · by_cases hs : t = s
      · subst hs
        simp [List.lookup]
      · have hb : (t == s) = false := beq_eq_false_iff_ne.mpr hs
        simp [List.lookup, hb, ih h]

/-- C5 (amended): for every scenario with at least one cue and every
whole second `t` in the complexity map's domain, the stored value is the
sum over the cues active on the **closed** window `start ≤ t ≤ end`
(not the half-open window the claim states) of the per-cue score, with
the `1 + 0.5·(k−1)` multiplier when `k ≥ 2` cues are active. -/
theorem analyze_scenario_complexity_spec (sc : Scenario) (h : sc.cues ≠ []) (t : ℤ)
    (ht : t ∈ (analyze_scenario_complexity sc).map Prod.fst) :
    List.lookup t (analyze_scenario_complexity sc)
      = some (specComplexityClosed sc.cues t) := by
  obtain ⟨cues⟩ := sc
  cases cues with
  | nil => exact absurd rfl h
  | cons c rest =>
    show List.lookup t ((intRange 0 (pyInt (maxCueEnd (c :: rest)) + 1)).map
      (fun s => (s, complexityAt (c :: rest) s))) = _
    rw [show (fun s => (s, complexityAt (c :: rest) s))
        = (fun s => (s, specComplexityClosed (c :: rest) s)) from
      funext (fun s => by rw [complexityAt_eq_spec])]
    apply lookup_map_self
    have ht2 : t ∈ ((intRange 0 (pyInt (maxCueEnd (c :: rest)) + 1)).map
        (fun s => (s, complexityAt (c :: rest) s))).map Prod.fst := ht
    simpa [List.map_map, Function.comp] using ht2

/-- One cue on `[0, 2]`, for the C5 boundary counterexample. -/
def cexSc5 : Scenario := { cues := [{ start := 0, endTime := 2 }] }

/-- C5 (counterexample as stated): at `t = 2` — the end of the only cue,
and a second inside the map's domain — the code stores complexity `1`
(the cue is counted active, `start <= t <= end`), while the claim's
half-open window `start <= t < end` yields `0`. -/
theorem analyze_scenario_complexity_counterexample :
    (2 : ℤ) ∈ (analyze_scenario_complexity cexSc5).map Prod.fst ∧
    List.lookup 2 (analyze_scenario_complexity cexSc5) = some 1 ∧
    specComplexityHalfOpen cexSc5.cues 2 = 0 ∧
    (1 : ℚ) ≠ 0 := by
  refine ⟨?_, ?_, ?_, ?_⟩ <;> with_unfolding_all decide

/-- C5 witness: the amended theorem at `t = 1` on the same scenario. -/
theorem analyze_scenario_complexity_spec_witness :
    cexSc5.cues ≠ [] ∧
    (1 : ℤ) ∈ (analyze_scenario_complexity cexSc5).map Prod.fst ∧
    List.lookup 1 (analyze_scenario_complexity cexSc5)
      = some (specComplexityClosed cexSc5.cues 1) :=
  ⟨by decide, by with_unfolding_all decide,
    analyze_scenario_complexity_spec cexSc5 (by decide) 1 (by with_unfolding_all decide)⟩

/-! ## Claim C1 — partitioning by `smart_segment_split` -/

theorem mem_intRange {a b s : ℤ} : s ∈ intRange a b ↔ a ≤ s ∧ s < b := by
  unfold intRange
  constructor
  · intro hs
    obtain ⟨i, hi, rfl⟩ := List.mem_map.mp hs
    rw [List.mem_range] at hi
    have : (i : ℤ) < b - a := Int.lt_toNat.mp hi
    omega
  · intro ⟨h1, h2⟩
    refine List.mem_map.mpr ⟨(s - a).toNat, ?_, by omega⟩
    rw [List.mem_range]
    exact Int.lt_toNat.mpr (by omega)

theorem pyInt_nonneg {q : ℚ} (h : 0 ≤ q) : 0 ≤ pyInt q := by
  unfold pyInt
  rw [if_pos h]
  exact Int.le_floor.mpr (by exact_mod_cast h)

theorem pyInt_cast_le {q : ℚ} (h : 0 ≤ q) : (pyInt q : ℚ) ≤ q := by
  unfold pyInt
  rw [if_pos h]
  exact Int.floor_le q

theorem pyInt_nonpos {q : ℚ} (h : q < 0) : pyInt q ≤ 0 := by
  unfold pyInt
  rw [if_neg (by exact not_le.mpr h)]
  exact Int.ceil_le.mpr (by exact_mod_cast h.le)

theorem getD_mem_of_lt (l : List ℚ) (i : ℕ) (h : i < l.length) : l.getD i 0 ∈ l := by
  rw [List.getD_eq_getElem?_getD, List.getElem?_eq_getElem h]
  exact List.getElem_mem h

theorem getD_bound (l : List ℚ) (T : ℚ) (hT : 0 ≤ T)
    (hb : ∀ x ∈ l, 0 ≤ x ∧ x ≤ T) (i : ℕ) : 0 ≤ l.getD i 0 ∧ l.getD i 0 ≤ T := by
  by_cases h : i < l.length
  · exact hb _ (getD_mem_of_lt l i h)
  · rw [List.getD_eq_getElem?_getD, List.getElem?_eq_none (by omega)]
    exact ⟨le_refl 0, hT⟩

theorem insertAtIdx_mem (x a : ℚ) : ∀ (n : ℕ) (l : List ℚ),
    x ∈ insertAtIdx n a l ↔ x = a ∨ x ∈ l := by
  intro n
  induction n with
  | zero => intro l; simp [insertAtIdx]
  | succ m ih =>
    intro l
    cases l with
    | nil => simp [insertAtIdx]
    | cons y ys =>
      simp only [insertAtIdx, List.mem_cons, ih ys]
      tauto

theorem getLastD_mem (l : List ℚ) (hl : l ≠ []) (d : ℚ) : l.getLastD d ∈ l := by
  induction l generalizing d with
  | nil => exact absurd rfl hl
  | cons x xs ih =>
    cases xs with
    | nil => simp [List.getLastD]
    | cons y ys =>
      rw [List.getLastD_cons]
      exact List.mem_cons_of_mem x (ih (by simp) x)

theorem getD_range_map (f : ℕ → ℚ) (n i : ℕ) (h : i < n) :
    ((List.range n).map f).getD i 0 = f i := by
  rw [List.getD_eq_getElem?_getD, List.getElem?_map, List.getElem?_range h]
  rfl

theorem range_getD_zip : ∀ (l : List ℚ),
    (List.range (l.length - 1)).map (fun i => (l.getD i 0, l.getD (i + 1) 0))
      = l.zip l.tail := by
  intro l
  induction l with
  | nil => simp
  | cons x l' ih =>
    cases l' with
    | nil => simp
    | cons y rest =>
      have hlen : (x :: y :: rest : List ℚ).length - 1 = (y :: rest : List ℚ).length := by
        simp
      rw [hlen]
      have hlen2 : (y :: rest : List ℚ).length = ((y :: rest : List ℚ).length - 1) + 1 := by
        simp
      rw [hlen2, List.range_succ_eq_map, List.map_cons, List.map_map]
      show ((x :: y :: rest : List ℚ).getD 0 0, (x :: y :: rest : List ℚ).getD 1 0) :: _
        = (x, y) :: (y :: rest).zip (rest)
      refine congrArg₂ List.cons rfl ?_
      have : ((y :: rest : List ℚ).zip rest) = (y :: rest).zip ((y :: rest : List ℚ).tail) := rfl
      rw [this, ← ih]
      apply List.map_congr_left
      intro i _
      rfl

theorem sorted_head_eq (l : List ℚ) (hs : l.Sorted (· ≤ ·)) (h0 : (0 : ℚ) ∈ l)
    (hnn : ∀ x ∈ l, 0 ≤ x) : l.head? = some 0 := by
  cases l with
  | nil => cases h0
  | cons x t =>
    have hx0 : x ≤ 0 := by
      rcases List.mem_cons.mp h0 with h | h
      · exact le_of_eq h.symm
      · exact (List.sorted_cons.mp hs).1 0 h
    have h0x : 0 ≤ x := hnn x (List.mem_cons_self x t)
    have hx : x = 0 := le_antisymm hx0 h0x
    rw [hx]
    rfl

theorem sorted_getLastD_max (l : List ℚ) (hs : l.Sorted (· ≤ ·)) :
    ∀ x ∈ l, x ≤ l.getLastD 0 := by
  induction l with
  | nil => intro x hx; cases hx
  | cons a t ih =>
    intro x hx
    cases t with
    | nil =>
      rcases List.mem_cons.mp hx with h | h
      · subst h
        simp [List.getLastD]
      · cases h
    | cons b t2 =>
      have hab := (List.sorted_cons.mp hs).1
      have hs2 := (List.sorted_cons.mp hs).2
      have hcol : (a :: b :: t2 : List ℚ).getLastD 0 = (b :: t2 : List ℚ).getLastD 0 := by
        simp [List.getLastD_cons]
      rw [hcol]
      rcases List.mem_cons.mp hx with h | h
      · subst h
        calc x ≤ b := hab b (List.mem_cons_self b t2)
          _ ≤ (b :: t2 : List ℚ).getLastD 0 := ih hs2 b (List.mem_cons_self b t2)
      · exact ih hs2 x h

theorem sorted_getLast_eq (l : List ℚ) (T : ℚ) (hs : l.Sorted (· ≤ ·)) (hT : T ∈ l)
    (hub : ∀ x ∈ l, x ≤ T) : l.getLast? = some T := by
  have hne : l ≠ [] := by
    intro h
    rw [h] at hT
    cases hT
  have h1 : l.getLastD 0 ∈ l := getLastD_mem l hne 0
  have h2 : l.getLastD 0 ≤ T := hub _ h1
  have h3 : T ≤ l.getLastD 0 := sorted_getLastD_max l hs T hT
  have h4 : l.getLastD 0 = T := le_antisymm h2 h3
  rw [List.getLastD_eq_getLast?] at h4
  cases hl : l.getLast? with
  | none =>
    rw [List.getLast?_eq_none_iff] at hl
    exact absurd hl hne
  | some y =>
    rw [hl] at h4
    simp at h4
    rw [h4]

theorem two_mem_length (l : List ℚ) (T : ℚ) (h0 : (0 : ℚ) ∈ l) (hT : T ∈ l)
    (hne : T ≠ 0) : 2 ≤ l.length := by
  cases l with
  | nil => cases h0
  | cons x t =>
    cases t with
    | nil =>
      rcases List.mem_cons.mp h0 with h1 | h1
      · rcases List.mem_cons.mp hT with h2 | h2
        · rw [← h1] at h2
          exact absurd h2 hne
        · cases h2
      · cases h1
    | cons y t2 => simp

theorem zip_tail_chain : ∀ l : List ℚ,
    List.Chain' (fun p q : ℚ × ℚ => p.2 = q.1) (l.zip l.tail)
  | [] => List.chain'_nil
  | [_] => List.chain'_nil
  | x :: y :: rest => by
    have ih := zip_tail_chain (y :: rest)
    show List.Chain' _ ((x, y) :: (y :: rest).zip rest)
    rw [List.chain'_cons']
    constructor
    · intro q hq
      cases rest with
      | nil => cases hq
      | cons z t =>
        have : ((y :: z :: t).zip (z :: t)).head? = some (y, z) := rfl
        rw [this] at hq
        cases hq
        rfl
    · exact ih

theorem zip_tail_mem_le : ∀ l : List ℚ, l.Sorted (· ≤ ·) →
    ∀ p ∈ l.zip l.tail, p.1 ≤ p.2
  | [] => by intro _ p hp; cases hp
  | [_] => by intro _ p hp; cases hp
  | x :: y :: rest => by
    intro hs p hp
    have hs2 := (List.sorted_cons.mp hs).2
    rcases List.mem_cons.mp hp with h | h
    · subst h
      exact (List.sorted_cons.mp hs).1 y (List.mem_cons_self y rest)
    · exact zip_tail_mem_le (y :: rest) hs2 p h

theorem zip_tail_getLast : ∀ l : List ℚ, 2 ≤ l.length →
    ((l.zip l.tail).getLast?).map Prod.snd = l.getLast?
  | [] => by intro h; simp at h
  | [_] => by intro h; simp at h
  | [x, y] => by intro _; rfl
  | x :: y :: z :: rest => by
    intro _
    have ih := zip_tail_getLast (y :: z :: rest) (by simp)
    show ((((x, y) : ℚ × ℚ) :: (y :: z :: rest).zip (z :: rest)).getLast?).map Prod.snd
      = (x :: y :: z :: rest : List ℚ).getLast?
    rw [List.getLast?_cons_cons]
    show (((y :: z :: rest).zip ((y :: z :: rest : List ℚ).tail)).getLast?).map Prod.snd = _
    rw [ih, List.getLast?_cons_cons]

/-- The conjunction of partition properties claimed for the segment list:
nonempty, first segment starts at `0`, last ends at `T`, contiguous
(each segment's end is the next segment's start), each window is
well-formed, windows are pairwise disjoint, and the half-open windows
union to exactly `[0, T)`. -/
def SegChain (segs : List VideoSegment) (T : ℚ) : Prop :=
  segs ≠ [] ∧
  segs.head?.map (fun s => s.start_time) = some 0 ∧
  segs.getLast?.map (fun s => s.end_time) = some T ∧
  List.Chain' (fun a b => a.end_time = b.start_time) segs ∧
  (∀ s ∈ segs, s.start_time ≤ s.end_time) ∧
  List.Pairwise (fun a b =>
    Disjoint (Set.Ico a.start_time a.end_time) (Set.Ico b.start_time b.end_time)) segs ∧
  (⋃ s ∈ segs, Set.Ico s.start_time s.end_time) = Set.Ico 0 T

theorem listUnion_cons (x : VideoSegment) (l : List VideoSegment)
    (f : VideoSegment → Set ℚ) :
    (⋃ s ∈ (x :: l), f s) = f x ∪ ⋃ s ∈ l, f s := by
  ext a
  simp only [Set.mem_iUnion, Set.mem_union, List.mem_cons]
  constructor
  · rintro ⟨s, rfl | hs, hfs⟩
    · exact Or.inl hfs
    · exact Or.inr ⟨s, hs, hfs⟩
  · rintro (h | ⟨s, hs, hfs⟩)
    · exact ⟨x, Or.inl rfl, h⟩
    · exact ⟨s, Or.inr hs, hfs⟩

theorem chain_start_le_lastD : ∀ (segs : List VideoSegment) (s0 : VideoSegment),
    List.Chain' (fun a b => a.end_time = b.start_time) (s0 :: segs) →
    (∀ s ∈ s0 :: segs, s.start_time ≤ s.end_time) →
    s0.start_time ≤ ((s0 :: segs).getLastD s0).end_time
  | [], s0 => by
    intro _ hle
    exact hle s0 (List.mem_cons_self s0 [])
  | s1 :: rest, s0 => by
    intro hch hle
    have hch2 : List.Chain' (fun a b => a.end_time = b.start_time) (s1 :: rest) :=
      (List.chain'_cons.mp hch).2
    have h01 : s0.end_time = s1.start_time := (List.chain'_cons.mp hch).1
    have ih := chain_start_le_lastD rest s1 hch2
      (fun s hs => hle s (List.mem_cons_of_mem s0 hs))
    have e1 : ((s0 :: s1 :: rest : List VideoSegment).getLastD s0) = rest.getLastD s1 := by
      rw [List.getLastD_cons, List.getLastD_cons]
    have e2 : ((s1 :: rest : List VideoSegment).getLastD s1) = rest.getLastD s1 :=
      List.getLastD_cons s1 s1 rest
    have hcol : ((s0 :: s1 :: rest : List VideoSegment).getLastD s0)
        = ((s1 :: rest : List VideoSegment).getLastD s1) := e1.trans e2.symm
    rw [hcol]
    calc s0.start_time ≤ s0.end_time := hle s0 (List.mem_cons_self _ _)
      _ = s1.start_time := h01
      _ ≤ _ := ih

theorem chain_union : ∀ (segs : List VideoSegment) (s0 : VideoSegment),
    List.Chain' (fun a b => a.end_time = b.start_time) (s0 :: segs) →
    (∀ s ∈ s0 :: segs, s.start_time ≤ s.end_time) →
    (⋃ s ∈ (s0 :: segs), Set.Ico s.start_time s.end_time)
      = Set.Ico s0.start_time (((s0 :: segs).getLastD s0).end_time)
  | [], s0 => by
    intro _ _
    rw [listUnion_cons]
    simp [List.getLastD]
  | s1 :: rest, s0 => by
    intro hch hle
    have hch2 : List.Chain' (fun a b => a.end_time = b.start_time) (s1 :: rest) :=
      (List.chain'_cons.mp hch).2
    have h01 : s0.end_time = s1.start_time := (List.chain'_cons.mp hch).1
    have hle2 : ∀ s ∈ s1 :: rest, s.start_time ≤ s.end_time :=
      fun s hs => hle s (List.mem_cons_of_mem s0 hs)
    have ih := chain_union rest s1 hch2 hle2
    have e1 : ((s0 :: s1 :: rest : List VideoSegment).getLastD s0) = rest.getLastD s1 := by
      rw [List.getLastD_cons, List.getLastD_cons]
    have e2 : ((s1 :: rest : List VideoSegment).getLastD s1) = rest.getLastD s1 :=
      List.getLastD_cons s1 s1 rest
    have hcol : ((s0 :: s1 :: rest : List VideoSegment).getLastD s0)
        = ((s1 :: rest : List VideoSegment).getLastD s1) := e1.trans e2.symm
    rw [listUnion_cons, ih, hcol]
    rw [← h01]
    apply Set.Ico_union_Ico_eq_Ico
    · exact hle s0 (List.mem_cons_self _ _)
    · rw [h01]
      exact chain_start_le_lastD rest s1 hch2 hle2

theorem chain_pairwise_le : ∀ segs : List VideoSegment,
    List.Chain' (fun a b => a.end_time = b.start_time) segs →
    (∀ s ∈ segs, s.start_time ≤ s.end_time) →
    List.Pairwise (fun a b => a.end_time ≤ b.start_time) segs
  | [] => by intro _ _; exact List.Pairwise.nil
  | [_] => by intro _ _; simp
  | s0 :: s1 :: rest => by
    intro hch hle
    have hch2 := (List.chain'_cons.mp hch).2
    have h01 : s0.end_time = s1.start_time := (List.chain'_cons.mp hch).1
    have hle2 : ∀ s ∈ s1 :: rest, s.start_time ≤ s.end_time :=
      fun s hs => hle s (List.mem_cons_of_mem s0 hs)
    have ih := chain_pairwise_le (s1 :: rest) hch2 hle2
    rw [List.pairwise_cons]
    refine ⟨?_, ih⟩
    intro b hb
    rcases List.mem_cons.mp hb with h | h
    · subst h
      exact le_of_eq h01
    · have hpair := (List.pairwise_cons.mp ih).1 b h
      calc s0.end_time = s1.start_time := h01
        _ ≤ s1.end_time := hle2 s1 (List.mem_cons_self _ _)
        _ ≤ b.start_time := hpair

theorem segChain_of_points (P : List ℚ) (T : ℚ) (segs : List VideoSegment)
    (hmap : segs.map (fun s => (s.start_time, s.end_time)) = P.zip P.tail)
    (hs : P.Sorted (· ≤ ·)) (hhead : P.head? = some 0) (hlast : P.getLast? = some T)
    (hlen : 2 ≤ P.length) : SegChain segs T := by
  match P, hlen with
  | p0 :: p1 :: pr, _ =>
    have hp0 : p0 = 0 := by
      have : some p0 = some 0 := hhead
      simpa using this
    subst hp0
    -- segs is nonempty
    have hlenz : ((0 : ℚ) :: p1 :: pr).tail.length = (p1 :: pr : List ℚ).length := rfl
    have hseglen : segs.length = (p1 :: pr : List ℚ).length := by
      have := congrArg List.length hmap
      rw [List.length_map, List.length_zip] at this
      simpa using this
    have hne : segs ≠ [] := by
      intro h
      rw [h] at hseglen
      simp at hseglen
    -- mem-le
    have hmemle : ∀ s ∈ segs, s.start_time ≤ s.end_time := by
      intro s hsmem
      have hz : (s.start_time, s.end_time) ∈ ((0 : ℚ) :: p1 :: pr).zip ((0 : ℚ) :: p1 :: pr).tail := by
        rw [← hmap]
        exact List.mem_map_of_mem _ hsmem
      exact zip_tail_mem_le _ hs _ hz
    -- chain
    have hchain : List.Chain' (fun a b => a.end_time = b.start_time) segs := by
      have hzc := zip_tail_chain ((0 : ℚ) :: p1 :: pr)
      rw [← hmap] at hzc
      exact (List.chain'_map _).mp hzc
    -- head
    have hheadseg : segs.head?.map (fun s => s.start_time) = some 0 := by
      have h1 : (segs.map (fun s => (s.start_time, s.end_time))).head?
          = some ((0 : ℚ), p1) := by
        rw [hmap]
        rfl
      rw [List.head?_map] at h1
      cases hsegs : segs.head? with
      | none => rw [hsegs] at h1; cases h1
      | some s0 =>
        rw [hsegs] at h1
        simp only [Option.map_some', Option.some.injEq, Prod.mk.injEq] at h1
        simp [h1.1]
    -- last
    have hlastseg : segs.getLast?.map (fun s => s.end_time) = some T := by
      have h1 := zip_tail_getLast ((0 : ℚ) :: p1 :: pr) (by simp)
      rw [← hmap, List.getLast?_map, hlast, Option.map_map] at h1
      exact h1
    refine ⟨hne, hheadseg, hlastseg, hchain, hmemle, ?_, ?_⟩
    · refine (chain_pairwise_le segs hchain hmemle).imp ?_
      intro a b hab
      rw [Set.disjoint_left]
      intro x hx1 hx2
      have : x < x := lt_of_lt_of_le hx1.2 (le_trans hab hx2.1)
      exact absurd this (lt_irrefl x)
    · cases segs with
      | nil => exact absurd rfl hne
      | cons s0 srest =>
        have hu := chain_union srest s0 hchain hmemle
        have hstart : s0.start_time = 0 := by simpa using hheadseg
        have hlastend : (((s0 :: srest).getLastD s0)).end_time = T := by
          rw [List.getLastD_eq_getLast?]
          cases hgl : (s0 :: srest).getLast? with
          | none => exact absurd (List.getLast?_eq_none_iff.mp hgl) (by simp)
          | some sl =>
            rw [hgl] at hlastseg
            simpa using hlastseg
        rw [hu, hstart, hlastend]

theorem bestSplitLoop_mem (cmap : List (ℤ × ℚ)) :
    ∀ (ks : List ℤ) (b : ℚ) (mc : Option ℚ),
      bestSplitLoop cmap ks b mc = b ∨ ∃ s ∈ ks, bestSplitLoop cmap ks b mc = (s : ℚ) := by
  intro ks
  induction ks with
  | nil => intro b mc; exact Or.inl rfl
  | cons sec rest ih =>
    intro b mc
    simp only [bestSplitLoop]
    by_cases hc : mapGetD cmap sec = 0
    · rw [if_pos hc]
      exact Or.inr ⟨sec, List.mem_cons_self _ _, rfl⟩
    · rw [if_neg hc]
      rcases mc with _ | m
      · dsimp only
        rcases ih ((sec : ℚ)) (some (mapGetD cmap sec)) with h | ⟨s, hs, hres⟩
        · exact Or.inr ⟨sec, List.mem_cons_self _ _, h⟩
        · exact Or.inr ⟨s, List.mem_cons_of_mem _ hs, hres⟩
      · dsimp only
        by_cases hlt : mapGetD cmap sec < m
        · rw [if_pos hlt]
          rcases ih ((sec : ℚ)) (some (mapGetD cmap sec)) with h | ⟨s, hs, hres⟩
          · exact Or.inr ⟨sec, List.mem_cons_self _ _, h⟩
          · exact Or.inr ⟨s, List.mem_cons_of_mem _ hs, hres⟩
        · rw [if_neg hlt]
          rcases ih b (some m) with h | ⟨s, hs, hres⟩
          · exact Or.inl h
          · exact Or.inr ⟨s, List.mem_cons_of_mem _ hs, hres⟩

theorem find_best_split_near_bounds (cmap : List (ℤ × ℚ)) (target minT maxT T : ℚ)
    (htl : 0 ≤ target) (htu : target ≤ T) (hminT : 0 ≤ minT) (hmaxT : maxT ≤ T) :
    0 ≤ find_best_split_near cmap target minT maxT ∧
      find_best_split_near cmap target minT maxT ≤ T := by
  unfold find_best_split_near
  rcases bestSplitLoop_mem cmap
      (intRange (pyInt (max minT (target - 2))) (pyInt (min maxT (target + 3))))
      target none with h | ⟨s, hs, hres⟩
  · rw [h]
    exact ⟨htl, htu⟩
  · rw [hres]
    rw [mem_intRange] at hs
    obtain ⟨hs1, hs2⟩ := hs
    have hlow : 0 ≤ pyInt (max minT (target - 2)) :=
      pyInt_nonneg (le_max_of_le_left hminT)
    have hs0 : 0 ≤ s := le_trans hlow hs1
    constructor
    · exact_mod_cast hs0
    · set u := min maxT (target + 3) with hu
      have hupos : 0 ≤ u := by
        by_contra hneg
        push_neg at hneg
        have := pyInt_nonpos hneg
        omega
      have hcast : ((s : ℤ) : ℚ) < (pyInt u : ℚ) := by exact_mod_cast hs2
      have hfl : (pyInt u : ℚ) ≤ u := pyInt_cast_le hupos
      have : ((s : ℤ) : ℚ) < u := lt_of_lt_of_le hcast hfl
      calc ((s : ℤ) : ℚ) ≤ u := this.le
        _ ≤ maxT := min_le_left _ _
        _ ≤ T := hmaxT

theorem splitLoop_inv (cmap : List (ℤ × ℚ)) (T : ℚ) (N : ℕ) (target : ℚ) :
    ∀ (ks : List ℤ) (cur lastSplit : ℚ) (pts : List ℚ),
      (∀ k ∈ ks, 0 ≤ k ∧ (k : ℚ) ≤ T) →
      0 ≤ lastSplit →
      pts ≠ [] →
      (∀ x ∈ pts, 0 ≤ x ∧ x ≤ T) →
      (0 : ℚ) ∈ pts →
      splitLoop cmap T N target ks cur lastSplit pts ≠ [] ∧
      (∀ x ∈ splitLoop cmap T N target ks cur lastSplit pts, 0 ≤ x ∧ x ≤ T) ∧
      (0 : ℚ) ∈ splitLoop cmap T N target ks cur lastSplit pts := by
  intro ks
  induction ks with
  | nil =>
    intro cur lastSplit pts _ _ hne hbnd h0
    exact ⟨hne, hbnd, h0⟩
  | cons sec rest ih =>
    intro cur lastSplit pts hks hls hne hbnd h0
    have hksec := hks sec (List.mem_cons_self _ _)
    have hkrest : ∀ k ∈ rest, 0 ≤ k ∧ (k : ℚ) ≤ T :=
      fun k hk => hks k (List.mem_cons_of_mem _ hk)
    have hbest := find_best_split_near_bounds cmap ((sec : ℚ)) lastSplit
      (min T ((sec : ℚ) + 5)) T (by exact_mod_cast hksec.1) hksec.2 hls (min_le_left _ _)
    simp only [splitLoop]
    by_cases h1 : target ≤ cur + mapGetD cmap sec
    · rw [if_pos h1]
      by_cases h2 : lastSplit + 5 <
          find_best_split_near cmap ((sec : ℚ)) lastSplit (min T ((sec : ℚ) + 5))
      · rw [if_pos h2]
        have hbnd1 : ∀ x ∈ pts ++ [find_best_split_near cmap ((sec : ℚ)) lastSplit
            (min T ((sec : ℚ) + 5))], 0 ≤ x ∧ x ≤ T := by
          intro x hx
          rcases List.mem_append.mp hx with h | h
          · exact hbnd x h
          · rcases List.mem_singleton.mp h with rfl
            exact hbest
        have h01 : (0 : ℚ) ∈ pts ++ [find_best_split_near cmap ((sec : ℚ)) lastSplit
            (min T ((sec : ℚ) + 5))] := List.mem_append_left _ h0
        by_cases h3 : N ≤ (pts ++ [find_best_split_near cmap ((sec : ℚ)) lastSplit
            (min T ((sec : ℚ) + 5))]).length
        · rw [if_pos h3]
          exact ⟨by simp, hbnd1, h01⟩
        · rw [if_neg h3]
          exact ih 0 _ _ hkrest hbest.1 (by simp) hbnd1 h01
      · rw [if_neg h2]
        exact ih _ _ _ hkrest hls hne hbnd h0
    · rw [if_neg h1]
      exact ih _ _ _ hkrest hls hne hbnd h0

theorem addMidpoints_inv (T : ℚ) (hT : 0 ≤ T) (N : ℕ) :
    ∀ (fuel : ℕ) (pts : List ℚ), N - pts.length ≤ fuel →
      pts ≠ [] → (∀ x ∈ pts, 0 ≤ x ∧ x ≤ T) → (0 : ℚ) ∈ pts →
      addMidpoints N pts ≠ [] ∧ (∀ x ∈ addMidpoints N pts, 0 ≤ x ∧ x ≤ T) ∧
        (0 : ℚ) ∈ addMidpoints N pts := by
  intro fuel
  induction fuel with
  | zero =>
    intro pts hf hne hbnd h0
    unfold addMidpoints
    rw [if_neg (by omega)]
    exact ⟨hne, hbnd, h0⟩
  | succ m ih =>
    intro pts hf hne hbnd h0
    unfold addMidpoints
    by_cases hlt : pts.length < N
    · rw [if_pos hlt]
      simp only
      by_cases hgap : 10 < (largestGap pts).2
      · rw [if_pos hgap]
        have b1 := getD_bound pts T hT hbnd (largestGap pts).1
        have b2 := getD_bound pts T hT hbnd ((largestGap pts).1 + 1)
        have hnewbnd : 0 ≤ (pts.getD (largestGap pts).1 0 + pts.getD ((largestGap pts).1 + 1) 0) / 2
            ∧ (pts.getD (largestGap pts).1 0 + pts.getD ((largestGap pts).1 + 1) 0) / 2 ≤ T := by
          constructor
          · exact div_nonneg (add_nonneg b1.1 b2.1) (by norm_num)
          · nlinarith [b1.2, b2.2]
        apply ih
        · rw [insertAtIdx_length]
          omega
        · intro hcontra
          have := insertAtIdx_length ((largestGap pts).1 + 1)
            ((pts.getD (largestGap pts).1 0 + pts.getD ((largestGap pts).1 + 1) 0) / 2) pts
          rw [hcontra] at this
          simp at this
        · intro x hx
          rcases (insertAtIdx_mem x _ _ pts).mp hx with h | hxp
          · rw [h]
            exact hnewbnd
          · exact hbnd x hxp
        · exact (insertAtIdx_mem 0 _ _ pts).mpr (Or.inr h0)
      · rw [if_neg hgap]
        exact ⟨hne, hbnd, h0⟩
    · rw [if_neg hlt]
      exact ⟨hne, hbnd, h0⟩

theorem sorted_range_map_mono (n : ℕ) (f : ℕ → ℚ) (hf : ∀ i j, i ≤ j → f i ≤ f j) :
    ((List.range n).map f).Sorted (· ≤ ·) := by
  rw [List.Sorted, List.pairwise_map]
  exact (List.pairwise_lt_range n).imp (fun h => hf _ _ h.le)

theorem evenPoints_eq (T : ℚ) (N : ℕ) (hN : 1 ≤ N) :
    ((0 : ℚ) :: (List.range (N - 1)).map
        (fun (i : ℕ) => ((i : ℚ) + 1) * (T / (N : ℚ)))) ++ [T]
      = (List.range (N + 1)).map (fun (i : ℕ) => (i : ℚ) * (T / (N : ℚ))) := by
  have hN0 : (N : ℚ) ≠ 0 := by
    exact_mod_cast Nat.pos_iff_ne_zero.mp (by omega)
  have hfN : ((N : ℚ)) * (T / (N : ℚ)) = T := by
    field_simp
  rw [List.range_succ_eq_map, List.map_cons, List.map_map]
  have hsucc : N = (N - 1) + 1 := by omega
  rw [show List.range N = List.range ((N - 1) + 1) from by rw [← hsucc]]
  rw [List.range_succ, List.map_append]
  show ((0 : ℚ) :: (List.range (N - 1)).map
      (fun (i : ℕ) => ((i : ℚ) + 1) * (T / (N : ℚ)))) ++ [T]
    = ((0 : ℕ) : ℚ) * (T / (N : ℚ))
      :: ((List.range (N - 1)).map ((fun (i : ℕ) => (i : ℚ) * (T / (N : ℚ))) ∘ Nat.succ)
        ++ [((fun (i : ℕ) => (i : ℚ) * (T / (N : ℚ))) ∘ Nat.succ) (N - 1)])
  have h0 : ((0 : ℕ) : ℚ) * (T / (N : ℚ)) = 0 := by norm_num
  have hlastv : ((fun (i : ℕ) => (i : ℚ) * (T / (N : ℚ))) ∘ Nat.succ) (N - 1) = T := by
    show (((N - 1 + 1 : ℕ)) : ℚ) * (T / (N : ℚ)) = T
    rw [← hsucc]
    exact hfN
  rw [h0, hlastv]
  have hmid : (List.range (N - 1)).map (fun (i : ℕ) => ((i : ℚ) + 1) * (T / (N : ℚ)))
      = (List.range (N - 1)).map ((fun (i : ℕ) => (i : ℚ) * (T / (N : ℚ))) ∘ Nat.succ) := by
    apply List.map_congr_left
    intro i _
    show ((i : ℚ) + 1) * (T / (N : ℚ)) = (((i + 1 : ℕ)) : ℚ) * (T / (N : ℚ))
    push_cast
    ring
  rw [hmid]
  rfl

theorem sortStep_spec (pts2 : List ℚ) (T : ℚ) (hT : 0 < T)
    (hbnd : ∀ x ∈ pts2, 0 ≤ x ∧ x ≤ T) (h0 : (0 : ℚ) ∈ pts2) (hTm : T ∈ pts2) :
    (List.insertionSort (fun a b => a ≤ b) pts2).Sorted (· ≤ ·) ∧
    (List.insertionSort (fun a b => a ≤ b) pts2).head? = some 0 ∧
    (List.insertionSort (fun a b => a ≤ b) pts2).getLast? = some T ∧
    2 ≤ (List.insertionSort (fun a b => a ≤ b) pts2).length := by
  have hperm := List.perm_insertionSort (fun a b => a ≤ b) pts2
  have hsorted : (List.insertionSort (fun a b => a ≤ b) pts2).Sorted (· ≤ ·) :=
    List.sorted_insertionSort _ _
  have hmem : ∀ x, x ∈ List.insertionSort (fun a b => a ≤ b) pts2 ↔ x ∈ pts2 :=
    fun x => hperm.mem_iff
  have hbnd2 : ∀ x ∈ List.insertionSort (fun a b => a ≤ b) pts2, 0 ≤ x ∧ x ≤ T :=
    fun x hx => hbnd x ((hmem x).mp hx)
  have h02 : (0 : ℚ) ∈ List.insertionSort (fun a b => a ≤ b) pts2 := (hmem 0).mpr h0
  have hT2 : T ∈ List.insertionSort (fun a b => a ≤ b) pts2 := (hmem T).mpr hTm
  refine ⟨hsorted, ?_, ?_, ?_⟩
  · exact sorted_head_eq _ hsorted h02 (fun x hx => (hbnd2 x hx).1)
  · exact sorted_getLast_eq _ T hsorted hT2 (fun x hx => (hbnd2 x hx).2)
  · exact two_mem_length _ T h02 hT2 hT.ne'

theorem find_optimal_points_spec (cmap : List (ℤ × ℚ)) (T : ℚ) (N : ℕ)
    (hT : 0 < T) (hN : 1 ≤ N)
    (hkeys : ∀ k ∈ cmap.map Prod.fst, 0 ≤ k ∧ (k : ℚ) ≤ T) :
    (find_optimal_split_points cmap T N).Sorted (· ≤ ·) ∧
    (find_optimal_split_points cmap T N).head? = some 0 ∧
    (find_optimal_split_points cmap T N).getLast? = some T ∧
    2 ≤ (find_optimal_split_points cmap T N).length := by
  have hNpos : (0 : ℚ) < (N : ℚ) := by exact_mod_cast (by omega : 0 < N)
  by_cases hc : cmap.isEmpty
  · have heq : find_optimal_split_points cmap T N
        = ((0 : ℚ) :: (List.range (N - 1)).map
          (fun (i : ℕ) => ((i : ℚ) + 1) * (T / (N : ℚ)))) ++ [T] := by
      unfold find_optimal_split_points
      rw [if_pos hc]
    rw [heq]
    refine ⟨?_, ?_, ?_, ?_⟩
    · rw [evenPoints_eq T N hN]
      apply sorted_range_map_mono
      intro i j hij
      have hij2 : (i : ℚ) ≤ (j : ℚ) := by exact_mod_cast hij
      exact mul_le_mul_of_nonneg_right hij2 (le_of_lt (div_pos hT hNpos))
    · rfl
    · exact List.getLast?_concat _
    · simp
  · have heq : find_optimal_split_points cmap T N
        = List.insertionSort (fun a b => a ≤ b)
          (if (addMidpoints N (splitLoop cmap T N
                ((cmap.map Prod.snd).sum / (N : ℚ))
                (List.insertionSort (fun a b => a ≤ b) (cmap.map Prod.fst)) 0 0
                [0])).getLastD 0 < T
           then (addMidpoints N (splitLoop cmap T N
                ((cmap.map Prod.snd).sum / (N : ℚ))
                (List.insertionSort (fun a b => a ≤ b) (cmap.map Prod.fst)) 0 0
                [0])) ++ [T]
           else (addMidpoints N (splitLoop cmap T N
                ((cmap.map Prod.snd).sum / (N : ℚ))
                (List.insertionSort (fun a b => a ≤ b) (cmap.map Prod.fst)) 0 0
                [0]))) := by
      unfold find_optimal_split_points
      rw [if_neg hc]
    rw [heq]
    have hkeys2 : ∀ k ∈ List.insertionSort (fun a b => a ≤ b) (cmap.map Prod.fst),
        0 ≤ k ∧ (k : ℚ) ≤ T :=
      fun k hk => hkeys k ((List.perm_insertionSort _ _).mem_iff.mp hk)
    obtain ⟨h1ne, h1bnd, h10⟩ := splitLoop_inv cmap T N
      ((cmap.map Prod.snd).sum / (N : ℚ))
      (List.insertionSort (fun a b => a ≤ b) (cmap.map Prod.fst)) 0 0 [0]
      hkeys2 (le_refl 0) (by simp)
      (by
        intro x hx
        rcases List.mem_singleton.mp hx with rfl
        exact ⟨le_refl 0, hT.le⟩)
      (List.mem_singleton.mpr rfl)
    obtain ⟨h2ne, h2bnd, h20⟩ := addMidpoints_inv T hT.le N N _ (by omega) h1ne h1bnd h10
    by_cases hlast : (addMidpoints N (splitLoop cmap T N
        ((cmap.map Prod.snd).sum / (N : ℚ))
        (List.insertionSort (fun a b => a ≤ b) (cmap.map Prod.fst)) 0 0
        [0])).getLastD 0 < T
    · rw [if_pos hlast]
      apply sortStep_spec _ T hT
      · intro x hx
        rcases List.mem_append.mp hx with h | h
        · exact h2bnd x h
        · rw [List.mem_singleton.mp h]
          exact ⟨hT.le, le_refl T⟩
      · exact List.mem_append_left _ h20
      · exact List.mem_append_right _ (List.mem_singleton.mpr rfl)
    · rw [if_neg hlast]
      apply sortStep_spec _ T hT h2bnd h20
      have hmemL := getLastD_mem _ h2ne 0
      have hle := (h2bnd _ hmemL).2
      have hge : T ≤ (addMidpoints N (splitLoop cmap T N
          ((cmap.map Prod.snd).sum / (N : ℚ))
          (List.insertionSort (fun a b => a ≤ b) (cmap.map Prod.fst)) 0 0
          [0])).getLastD 0 := not_lt.mp hlast
      have : (addMidpoints N (splitLoop cmap T N
          ((cmap.map Prod.snd).sum / (N : ℚ))
          (List.insertionSort (fun a b => a ≤ b) (cmap.map Prod.fst)) 0 0
          [0])).getLastD 0 = T := le_antisymm hle hge
      rw [this] at hmemL
      exact hmemL

theorem foldl_max_cue_le (T : ℚ) (l : List Cue) :
    ∀ a : ℚ, a ≤ T → (∀ x ∈ l, x.endTime ≤ T) →
      l.foldl (fun m x => max m x.endTime) a ≤ T := by
  induction l with
  | nil => intro a ha _; exact ha
  | cons c rest ih =>
    intro a ha hl
    exact ih (max a c.endTime)
      (max_le ha (hl c (List.mem_cons_self _ _)))
      (fun x hx => hl x (List.mem_cons_of_mem _ hx))

theorem maxCueEnd_le (T : ℚ) (cues : List Cue) (hne : cues ≠ [])
    (h : ∀ c ∈ cues, c.endTime ≤ T) : maxCueEnd cues ≤ T := by
  match cues, hne with
  | c :: rest, _ =>
    exact foldl_max_cue_le T rest c.endTime (h c (List.mem_cons_self _ _))
      (fun x hx => h x (List.mem_cons_of_mem _ hx))

/-- C1 (amended): for every scenario **whose cue end times do not exceed
the video duration**, every duration `T > 0` and worker count `N ≥ 1`,
the segments returned by `smart_segment_split` are contiguous,
non-overlapping, and their half-open windows union to exactly `[0, T)`:
the first starts at `0`, each segment's end is the next one's start, and
the last ends at `T`.  (Without the cue-end bound the property fails —
see the counterexample.) -/
theorem smart_segment_split_partitions (sc : Scenario) (T : ℚ) (N : ℕ)
    (hT : 0 < T) (hN : 1 ≤ N) (hends : ∀ c ∈ sc.cues, c.endTime ≤ T) :
    SegChain (smart_segment_split sc T N) T := by
  have hNpos : (0 : ℚ) < (N : ℚ) := by exact_mod_cast (by omega : 0 < N)
  have hN0 : (N : ℚ) ≠ 0 := ne_of_gt hNpos
  have hd : (0 : ℚ) ≤ T / (N : ℚ) := le_of_lt (div_pos hT hNpos)
  have hfN : ((N : ℚ)) * (T / (N : ℚ)) = T := by field_simp
  by_cases hc : sc.cues.isEmpty
  · -- no cues: `_even_split`
    have heq : smart_segment_split sc T N = even_split T N := by
      unfold smart_segment_split
      rw [if_pos hc]
    rw [heq]
    apply segChain_of_points
      ((List.range (N + 1)).map (fun (i : ℕ) => (i : ℚ) * (T / (N : ℚ)))) T
    · -- hmap
      unfold even_split
      rw [List.map_map]
      rw [← range_getD_zip]
      rw [List.length_map, List.length_range, Nat.add_sub_cancel]
      apply List.map_congr_left
      intro i hi
      rw [List.mem_range] at hi
      have hgd1 : ((List.range (N + 1)).map
          (fun (i : ℕ) => (i : ℚ) * (T / (N : ℚ)))).getD i 0
          = (i : ℚ) * (T / (N : ℚ)) := getD_range_map _ _ _ (by omega)
      have hgd2 : ((List.range (N + 1)).map
          (fun (i : ℕ) => (i : ℚ) * (T / (N : ℚ)))).getD (i + 1) 0
          = ((i + 1 : ℕ) : ℚ) * (T / (N : ℚ)) := getD_range_map _ _ _ (by omega)
      rw [hgd1, hgd2]
      have hminval : min (((i : ℚ) + 1) * (T / (N : ℚ))) T
          = ((i : ℚ) + 1) * (T / (N : ℚ)) := by
        apply min_eq_left
        calc ((i : ℚ) + 1) * (T / (N : ℚ))
            ≤ (N : ℚ) * (T / (N : ℚ)) := by
              apply mul_le_mul_of_nonneg_right _ hd
              exact_mod_cast (by omega : (i : ℤ) + 1 ≤ (N : ℤ))
          _ = T := hfN
      show ((i : ℚ) * (T / (N : ℚ)), min (((i : ℚ) + 1) * (T / (N : ℚ))) T)
        = ((i : ℚ) * (T / (N : ℚ)), ((i + 1 : ℕ) : ℚ) * (T / (N : ℚ)))
      rw [hminval]
      push_cast
      rfl
    · -- sorted
      apply sorted_range_map_mono
      intro i j hij
      exact mul_le_mul_of_nonneg_right (by exact_mod_cast hij) hd
    · -- head
      rw [List.head?_map, List.range_succ_eq_map]
      show some (((0 : ℕ) : ℚ) * (T / (N : ℚ))) = some 0
      norm_num
    · -- last
      rw [List.range_succ, List.map_append]
      show ((List.range N).map (fun (i : ℕ) => (i : ℚ) * (T / (N : ℚ)))
          ++ [((N : ℕ) : ℚ) * (T / (N : ℚ))]).getLast? = some T
      rw [List.getLast?_concat, hfN]
    · -- length
      rw [List.length_map, List.length_range]
      omega
  · -- cues present: complexity-guided split
    have hcne : sc.cues ≠ [] := by
      intro h
      rw [h] at hc
      exact hc rfl
    have hkeys : ∀ k ∈ (analyze_scenario_complexity sc).map Prod.fst,
        0 ≤ k ∧ (k : ℚ) ≤ T := by
      intro k hk
      have hkeq : (analyze_scenario_complexity sc).map Prod.fst
          = intRange 0 (pyInt (maxCueEnd sc.cues) + 1) := by
        obtain ⟨cues⟩ := sc
        cases cues with
        | nil => exact absurd rfl hcne
        | cons c rest =>
          show ((intRange 0 (pyInt (maxCueEnd (c :: rest)) + 1)).map
            (fun s => (s, complexityAt (c :: rest) s))).map Prod.fst = _
          rw [List.map_map]
          exact List.map_id _
      rw [hkeq, mem_intRange] at hk
      obtain ⟨hk1, hk2⟩ := hk
      refine ⟨hk1, ?_⟩
      have hM : maxCueEnd sc.cues ≤ T := maxCueEnd_le T sc.cues hcne hends
      by_cases hM0 : 0 ≤ maxCueEnd sc.cues
      · have : (k : ℚ) ≤ (pyInt (maxCueEnd sc.cues) : ℚ) := by
          exact_mod_cast (by omega : k ≤ pyInt (maxCueEnd sc.cues))
        calc (k : ℚ) ≤ (pyInt (maxCueEnd sc.cues) : ℚ) := this
          _ ≤ maxCueEnd sc.cues := pyInt_cast_le hM0
          _ ≤ T := hM
      · push_neg at hM0
        have := pyInt_nonpos hM0
        have hk0 : k = 0 := by omega
        rw [hk0]
        exact_mod_cast hT.le
    obtain ⟨hs, hhead, hlast, hlen⟩ :=
      find_optimal_points_spec (analyze_scenario_complexity sc) T N hT hN hkeys
    have heq : smart_segment_split sc T N
        = (List.range
            ((find_optimal_split_points (analyze_scenario_complexity sc) T N).length - 1)).map
          (fun i =>
            { segment_id := i
              worker_id := i % N
              start_time :=
                (find_optimal_split_points (analyze_scenario_complexity sc) T N).getD i 0
              end_time :=
                (find_optimal_split_points (analyze_scenario_complexity sc) T N).getD (i + 1) 0
              cues := get_segment_cues sc.cues
                ((find_optimal_split_points (analyze_scenario_complexity sc) T N).getD i 0)
                ((find_optimal_split_points (analyze_scenario_complexity sc) T N).getD (i + 1) 0)
              complexity_score := calculate_segment_complexity
                (analyze_scenario_complexity sc)
                ((find_optimal_split_points (analyze_scenario_complexity sc) T N).getD i 0)
                ((find_optimal_split_points (analyze_scenario_complexity sc) T N).getD (i + 1) 0)
              estimated_frames := pyInt
                (((find_optimal_split_points (analyze_scenario_complexity sc) T N).getD (i + 1) 0
                  - (find_optimal_split_points (analyze_scenario_complexity sc) T N).getD i 0)
                    * 30) }) := by
      unfold smart_segment_split
      rw [if_neg hc]
    rw [heq]
    apply segChain_of_points
      (find_optimal_split_points (analyze_scenario_complexity sc) T N) T _ _ hs hhead hlast hlen
    rw [List.map_map, ← range_getD_zip]
    rfl

/-- A scenario whose only cue ends at 12, far beyond the 2-second video
it is paired with below. -/
def cexSc1 : Scenario := { cues := [{ start := 0, endTime := 12 }] }

/-- C1 (counterexample as stated): with one cue on `[0, 12]`, a video
duration `T = 2 > 0` and `N = 2 ≥ 1` workers, `smart_segment_split`
returns the single segment `[0, 6)`: the accumulated complexity reaches
the per-worker target at second 6 (beyond the video's end, because the
complexity map is driven by cue end times, not the video duration), the
final `duration` endpoint is not appended since the last split point
already exceeds it, and the returned windows do not union to `[0, 2)`. -/
theorem smart_segment_split_counterexample :
    (0 : ℚ) < 2 ∧ (1 : ℕ) ≤ 2 ∧
    (smart_segment_split cexSc1 2 2).map (fun s => (s.start_time, s.end_time))
      = [(0, 6)] ∧
    ¬ SegChain (smart_segment_split cexSc1 2 2) 2 := by
  refine ⟨by norm_num, by norm_num, ?_, ?_⟩
  · with_unfolding_all decide
  · intro hchain
    obtain ⟨_, _, hlast, _⟩ := hchain
    have hsix : (smart_segment_split cexSc1 2 2).getLast?.map (fun s => s.end_time)
        = some 6 := by
      with_unfolding_all decide
    rw [hsix] at hlast
    have : (6 : ℚ) = 2 := Option.some.inj hlast
    norm_num at this

/-- A scenario whose cue fits inside the 10-second video used in the C1
witness. -/
def wSc1 : Scenario := { cues := [{ start := 0, endTime := 9 }] }

/-- C1 witness: the amended partition theorem at a concrete in-bounds
scenario (`T = 10`, `N = 3`, one cue on `[0, 9]`). -/
theorem smart_segment_split_partitions_witness :
    (0 : ℚ) < 10 ∧ (1 : ℕ) ≤ 3 ∧ (∀ c ∈ wSc1.cues, c.endTime ≤ 10) ∧
    SegChain (smart_segment_split wSc1 10 3) 10 :=
  ⟨by norm_num, by norm_num, by with_unfolding_all decide,
    smart_segment_split_partitions wSc1 10 3 (by norm_num) (by norm_num)
      (by with_unfolding_all decide)⟩
